import Mathlib

/-!
A verification development for the reactive-cell engine of this repository
(`src/react/src/lib.rs`, with `src/react/src/reactive_cells.rs` an identical split-out
of the same cell types, and `src/src/lib.rs` an earlier draft of the same design).

Embedding conventions:

* The generic value type `T` (`Copy + Debug + PartialEq`) is a type parameter
  `α` with `DecidableEq α`.
* `InputCellID(usize)`, `ComputeCellID(usize)` and `CallbackID(usize)` are `Nat`
  indexes; `CellID` is the tagged sum, as in the source.
* `HashSet`s of ids (`clients`) are embedded as duplicate-free `List Nat` in
  insertion order; `HashSet::insert` is insert-if-absent at the back.
  The `HashMap<CallbackID, Callback>` of a compute cell is embedded as the list
  of its keys (`callbacks : List Nat`), since callback bodies are opaque
  stateful closures: an invocation of callback `cb` of compute cell `c` with
  argument `v` is recorded as the trace event `Event.fire c cb v` instead of
  being executed.  Iteration order of `callbacks.values()` / set iteration is
  unspecified for a `HashMap`/`HashSet`; the embedding fixes registration order
  for callbacks and ascending index order for the propagation loop over the
  affected set.
* The interior-mutable cache `prev_val : Cell<Option<T>>` of each compute cell
  is threaded explicitly: the reactor state carries `prev_vals : List (Option α)`,
  the `i`-th entry being compute cell `i`'s `prev_val`.
* `ComputeCell::call` recurses through `Reactor::value` into the dependencies;
  the recursion is embedded with explicit fuel.  Fuel exhaustion, a failing
  `.unwrap()` (a dependency whose `value` is `None`) and an out-of-range
  `self.compute_cells[idx]` all yield `none`, the marker for a panic or
  non-termination of the original program; the public operations therefore
  return `Option` of (new state, result, trace).  Under the well-formedness
  invariant `WF` (established by construction: dependencies exist, and compute
  dependencies have strictly smaller index, because a compute cell can only
  depend on cells created before it) the marker is proved unreachable.
-/

namespace React

/-- The `CellID` enum of the source: `Input(InputCellID)` or `Compute(ComputeCellID)`,
with the `usize` payload of each newtype wrapper embedded as `Nat`. -/
inductive CellID where
  | Input (idx : Nat)
  | Compute (idx : Nat)
  deriving DecidableEq

/-- The `RemoveCallbackError` enum of the source. -/
inductive RemoveCallbackError where
  | NonexistentCell
  | NonexistentCallback
  deriving DecidableEq

/-- Observable events of a run: `eval c` records that compute cell `c`'s function
was applied (one execution of `ComputeCell::call` reaching `(self.fun)(&deps)`),
`fire c cb v` records that the callback with id `cb` registered on compute cell
`c` was invoked with argument `v`. -/
inductive Event (α : Type) where
  | eval (cell : Nat)
  | fire (cell : Nat) (cb : Nat) (val : α)
  deriving DecidableEq

/-- `InputCell` of the source: a directly settable value plus the `HashSet` of
its direct clients. -/
structure InputCell (α : Type) where
  clients : List Nat
  value : α

/-- `ComputeCell` of the source, minus the interior-mutable `prev_val` cache,
which is threaded separately (see `Reactor.prev_vals`).  `f` is the field `fun`
(a Lean keyword), `callbacks` the key set of the callback `HashMap`. -/
structure ComputeCell (α : Type) where
  f : List α → α
  deps : List CellID
  callbacks : List Nat
  next_cbid : Nat
  clients : List Nat

/-- The `Reactor`: input cells and compute cells, plus the vector of the
compute cells' `prev_val` caches (`prev_vals.get i` is cell `i`'s cache). -/
structure Reactor (α : Type) where
  input_cells : List (InputCell α)
  compute_cells : List (ComputeCell α)
  prev_vals : List (Option α)

namespace Reactor

variable {α : Type} [DecidableEq α]

/-- `Reactor::new`. -/
def new : Reactor α := ⟨[], [], []⟩

/-- The `prev_val` cache of compute cell `j` in cache vector `pv` (out of range
reads as `none`, the freshly-created state; unreachable under `WF`). -/
def pvAt (pv : List (Option α)) (j : Nat) : Option α := (pv.get? j).getD none

/-- The callback ids currently registered on compute cell `c`. -/
def callbacksOf (r : Reactor α) (c : Nat) : List Nat :=
  ((r.compute_cells.get? c).map (·.callbacks)).getD []

/-- The `clients` set of compute cell `c` (as a list). -/
def clientsListOf (r : Reactor α) (c : Nat) : List Nat :=
  ((r.compute_cells.get? c).map (·.clients)).getD []

/-- The `clients` set of input cell `k` (as a list). -/
def inputClientsOf (r : Reactor α) (k : Nat) : List Nat :=
  ((r.input_cells.get? k).map (·.clients)).getD []

/-- The stored value of input cell `k`, if it exists. -/
def inputValAt (r : Reactor α) (k : Nat) : Option α :=
  (r.input_cells.get? k).map (·.value)

/-- One step of `ComputeCell::call`'s dependency read
(`self.deps.iter().map(|c| reactor.value(*c).unwrap())`), parameterized by the
evaluator `ev` used for compute dependencies (`Reactor::value` on a
`CellID::Compute` calls `ComputeCell::call` on that cell).  Threads the cache
vector and accumulates the trace; `none` models the panic of `.unwrap()` on a
nonexistent cell (or a panic/divergence inside a recursive call). -/
def evalDepsWith (r : Reactor α)
    (ev : Nat → List (Option α) → Option (List (Option α) × α × List (Event α))) :
    List CellID → List (Option α) → Option (List (Option α) × List α × List (Event α))
  | [], pv => some (pv, [], [])
  | d :: ds, pv =>
    match d with
    | .Input j =>
      match r.input_cells.get? j with
      | none => none
      | some ic =>
        match evalDepsWith r ev ds pv with
        | none => none
        | some (pv', vs, tr) => some (pv', ic.value :: vs, tr)
    | .Compute j =>
      match ev j pv with
      | none => none
      | some (pv1, v, tr1) =>
        match evalDepsWith r ev ds pv1 with
        | none => none
        | some (pv2, vs, tr2) => some (pv2, v :: vs, tr1 ++ tr2)

/-- `ComputeCell::call` on compute cell `i` (which recurses into dependencies
through `Reactor::value`), with explicit `fuel` bounding the recursion depth:
reads all dependency values, applies the cell's function, compares the result
with the cell's `prev_val` cache, and on a difference (or a not-yet-populated
cache) updates the cache and fires every registered callback with the new
value.  Returns the updated cache vector, the computed value, and the trace.
`none` models a panic (`.unwrap()` on a nonexistent cell) or non-termination;
under `WF`, `fuel ≥ i + 1` always suffices because dependencies of cell `i`
have index `< i`. -/
def evalCell (r : Reactor α) : Nat → Nat → List (Option α) →
    Option (List (Option α) × α × List (Event α))
  | 0, _, _ => none
  | fuel+1, i, pv =>
    match r.compute_cells.get? i with
    | none => none
    | some cell =>
      match evalDepsWith r (evalCell r fuel) cell.deps pv with
      | none => none
      | some (pv1, vals, tr1) =>
        let nv := cell.f vals
        if pvAt pv1 i = some nv then
          some (pv1, nv, tr1 ++ [Event.eval i])
        else
          some (pv1.set i (some nv), nv,
            tr1 ++ [Event.eval i] ++ cell.callbacks.map (fun cb => Event.fire i cb nv))

/-- `Reactor::value`: an input handle reads the stored value (or `None` out of
range); a compute handle in range re-evaluates the cell via `ComputeCell::call`
(out of range yields `None`).  The returned reactor carries the updated caches;
the trace records evaluations and callback invocations performed by the read. -/
def value (r : Reactor α) : CellID → Option (Reactor α × Option α × List (Event α))
  | .Input j => some (r, (r.input_cells.get? j).map (·.value), [])
  | .Compute i =>
    match r.compute_cells.get? i with
    | none => some (r, none, [])
    | some _ =>
      match evalCell r r.compute_cells.length i r.prev_vals with
      | none => none
      | some (pv', v, tr) => some ({ r with prev_vals := pv' }, some v, tr)

/-- `Reactor::create_input`: appends a fresh input cell with empty clients and
returns (new reactor, its `InputCellID`). -/
def create_input (r : Reactor α) (initial : α) : Reactor α × Nat :=
  ({ r with input_cells := r.input_cells ++ [⟨[], initial⟩] }, r.input_cells.length)

/-- Does a `CellID` resolve to an existing cell? (the validation test of
`Reactor::create_compute`). -/
def cellExists (r : Reactor α) : CellID → Prop
  | .Input j => j < r.input_cells.length
  | .Compute j => j < r.compute_cells.length

instance (r : Reactor α) (d : CellID) : Decidable (r.cellExists d) :=
  match d with
  | .Input j => Nat.decLt j r.input_cells.length
  | .Compute j => Nat.decLt j r.compute_cells.length

/-- `HashSet::insert` on a clients set embedded as a duplicate-free list. -/
def addClient (cs : List Nat) (c : Nat) : List Nat := if c ∈ cs then cs else cs ++ [c]

/-- One step of the client-registration loop of `Reactor::create_compute`:
insert the new cell's id `cid` into the `clients` set of dependency `d` (a
nonexistent dependency — impossible after validation — is left alone). -/
def registerOne (r : Reactor α) (cid : Nat) : CellID → Reactor α
  | .Input j =>
    match r.input_cells.get? j with
    | some ic =>
      { r with input_cells :=
          r.input_cells.set j ({ ic with clients := addClient ic.clients cid }) }
    | none => r
  | .Compute j =>
    match r.compute_cells.get? j with
    | some c =>
      { r with compute_cells :=
          r.compute_cells.set j ({ c with clients := addClient c.clients cid }) }
    | none => r

/-- The client-registration loop of `Reactor::create_compute`: insert the new
cell's id `cid` into the `clients` set of every dependency. -/
def registerClients (r : Reactor α) (ds : List CellID) (cid : Nat) : Reactor α :=
  ds.foldl (fun acc d => registerOne acc cid d) r

/-- `Reactor::create_compute`: validates all dependency handles (first invalid
one is returned as the error, with no mutation at all), then registers the new
cell as a client of each dependency, builds the cell, runs `cell.call(&self)`
once to populate its cache (the new cell is not yet in `compute_cells` during
this call, exactly as in the source, where `call` precedes `push`), and appends
it.  The new cell starts with no callbacks, `next_cbid = 0`, no clients. -/
def create_compute (r : Reactor α) (dependencies : List CellID)
    (compute_func : List α → α) :
    Option (Reactor α × Except CellID Nat × List (Event α)) :=
  let cidx := r.compute_cells.length
  match dependencies.find? (fun d => !(decide (r.cellExists d))) with
  | some bad => some (r, .error bad, [])
  | none =>
    let r1 := registerClients r dependencies cidx
    match evalDepsWith r1 (evalCell r1 r1.compute_cells.length) dependencies r1.prev_vals with
    | none => none
    | some (pv1, vals, tr) =>
      some ({ input_cells := r1.input_cells,
              compute_cells := r1.compute_cells ++ [⟨compute_func, dependencies, [], 0, []⟩],
              prev_vals := pv1 ++ [some (compute_func vals)] },
            .ok cidx, tr ++ [Event.eval cidx])

/-- The `clients` set of compute cell `j`, as a `Finset` (for the fixpoint
iteration of `Reactor::set_value`; `HashSet`s compared for equality there). -/
def clientsOf (r : Reactor α) (j : Nat) : Finset Nat :=
  ((r.compute_cells.get? j).map (·.clients.toFinset)).getD ∅

/-- One iteration of the `while !done` fixpoint loop body of
`Reactor::set_value`: first every member of `clients1` and all its clients are
inserted into `clients2`, then `clients1` is extended with the clients of every
member of `clients2`. -/
def closStep (r : Reactor α) (c1 c2 : Finset Nat) : Finset Nat × Finset Nat :=
  let c2' := c2 ∪ c1 ∪ c1.biUnion (clientsOf r)
  (c1 ∪ c2'.biUnion (clientsOf r), c2')

/-- The `while !done` fixpoint loop of `Reactor::set_value`, with explicit fuel.
The loop exits when, after an iteration, `clients1 == clients2`; `none` models
non-termination (proved unreachable with fuel `compute_cells.length + 1`). -/
def closLoop (r : Reactor α) : Nat → Finset Nat → Finset Nat → Option (Finset Nat)
  | 0, _, _ => none
  | fuel+1, c1, c2 =>
    let p := closStep r c1 c2
    if p.1 = p.2 then some p.1 else closLoop r fuel p.1 p.2

/-- The final loop of `Reactor::set_value`: `cell.call(&self)` on every member
of the converged client set, threading the caches and accumulating the trace.
`none` models the panic of `self.compute_cells[idx]` on an out-of-range id, or
a panic inside `call`. -/
def runCalls (r : Reactor α) : List Nat → List (Option α) →
    Option (List (Option α) × List (Event α))
  | [], pv => some (pv, [])
  | c :: cs, pv =>
    match evalCell r r.compute_cells.length c pv with
    | none => none
    | some (pv1, _, tr1) =>
      match runCalls r cs pv1 with
      | none => none
      | some (pv2, tr2) => some (pv2, tr1 ++ tr2)

/-- `Reactor::set_value`: out-of-range handle returns `false`; a write of the
current value short-circuits to `true` with no propagation; otherwise the new
value is stored, the affected set is closed under the client relation by
fixpoint iteration, and every member is re-evaluated via `ComputeCell::call`,
in ascending id order (standing in for `HashSet` iteration order; the claims
proved below do not depend on this order).  An affected id out of range makes
the source's `self.compute_cells[idx]` panic, modelled by the explicit range
check (never failing under `WF`). -/
def set_value (r : Reactor α) (idx : Nat) (new_value : α) :
    Option (Reactor α × Bool × List (Event α)) :=
  match r.input_cells.get? idx with
  | none => some (r, false, [])
  | some ic =>
    if ic.value = new_value then some (r, true, [])
    else
      let r1 : Reactor α :=
        { r with input_cells := r.input_cells.set idx ({ ic with value := new_value }) }
      match closLoop r1 (r1.compute_cells.length + 1) ic.clients.toFinset ∅ with
      | none => none
      | some affected =>
        if ∀ c ∈ affected, c < r1.compute_cells.length then
          match runCalls r1
              ((List.range r1.compute_cells.length).filter (· ∈ affected)) r1.prev_vals with
          | none => none
          | some (pv', tr) => some ({ r1 with prev_vals := pv' }, true, tr)
        else none

/-- `Reactor::add_callback`: `None` for an out-of-range compute handle;
otherwise mints the cell's `next_cbid` as the fresh `CallbackID`, increments
the counter, and registers the callback (the opaque closure itself is not
stored; its invocations appear as `Event.fire` trace events). -/
def add_callback (r : Reactor α) (i : Nat) : Reactor α × Option Nat :=
  match r.compute_cells.get? i with
  | none => (r, none)
  | some cell =>
    let cbid := cell.next_cbid
    let cell' : ComputeCell α :=
      { cell with callbacks := cell.callbacks ++ [cbid], next_cbid := cbid + 1 }
    ({ r with compute_cells := r.compute_cells.set i cell' }, some cbid)

/-- `Reactor::remove_callback` of `src/react/src/lib.rs`: `NonexistentCell` if
the compute handle is out of range, `NonexistentCallback` if the cell exists
but holds no callback with that id, otherwise removes it and returns `Ok`. -/
def remove_callback (r : Reactor α) (cell cb : Nat) :
    Reactor α × Except RemoveCallbackError Unit :=
  match r.compute_cells.get? cell with
  | none => (r, .error .NonexistentCell)
  | some c =>
    if cb ∈ c.callbacks then
      let c' : ComputeCell α := { c with callbacks := c.callbacks.erase cb }
      ({ r with compute_cells := r.compute_cells.set cell c' }, .ok ())
    else (r, .error .NonexistentCallback)

end Reactor

namespace Reactor

variable {α : Type} [DecidableEq α]

/-- Dependency values for the pure denotation: reads each dependency in order,
an input dependency from the input list, a compute dependency through the
valuation `dv`; `none` if any read fails. -/
def depsVals (ics : List (InputCell α)) (dv : Nat → Option α) :
    List CellID → Option (List α)
  | [] => some []
  | .Input j :: ds =>
    match ics.get? j with
    | none => none
    | some ic => (depsVals ics dv ds).map (ic.value :: ·)
  | .Compute j :: ds =>
    match dv j with
    | none => none
    | some v => (depsVals ics dv ds).map (v :: ·)

/-- The mathematical value of compute cell `i`: its function applied to the
current denotations of its dependencies, with explicit fuel (under `WF`,
compute dependencies have smaller index, so fuel `i + 1` suffices).  This is
the value `ComputeCell::call` computes and returns; the cache plays no role. -/
def denotF (ics : List (InputCell α)) (ccs : List (ComputeCell α)) :
    Nat → Nat → Option α
  | 0, _ => none
  | fuel+1, i =>
    match ccs.get? i with
    | none => none
    | some cell => (depsVals ics (denotF ics ccs fuel) cell.deps).map cell.f

/-- The denotation of compute cell `i` of reactor `r`, at its canonical fuel. -/
def denot (r : Reactor α) (i : Nat) : Option α :=
  denotF r.input_cells r.compute_cells (i + 1) i

/-- The denotation of an arbitrary cell handle: the stored value for an input,
`denot` for a compute cell.  This is what a settled `Reactor::value` returns. -/
def cdenot (r : Reactor α) : CellID → Option α
  | .Input j => r.inputValAt j
  | .Compute i => r.denot i

/-- The cells evaluated by one dependency walk (helper for `evalSetF`). -/
def evalSetD (es : Nat → List Nat) : List CellID → List Nat
  | [] => []
  | .Input _ :: ds => evalSetD es ds
  | .Compute j :: ds => es j ++ evalSetD es ds

/-- The (multi)set of compute cells whose function one `ComputeCell::call` on
cell `i` executes: the cell itself plus, recursively, all compute dependencies.
Mirrors the traversal of `evalCell` and is independent of the cache vector. -/
def evalSetF (ccs : List (ComputeCell α)) : Nat → Nat → List Nat
  | 0, _ => []
  | fuel+1, i =>
    match ccs.get? i with
    | none => []
    | some cell => evalSetD (evalSetF ccs fuel) cell.deps ++ [i]

/-- A dependency handle acceptable for compute cell `i`: input dependencies in
range, compute dependencies of strictly smaller index (a compute cell can only
depend on cells that already existed when it was created). -/
def depOK (r : Reactor α) (i : Nat) : CellID → Prop
  | .Input j => j < r.input_cells.length
  | .Compute j => j < i

instance (r : Reactor α) (i : Nat) (d : CellID) : Decidable (r.depOK i d) :=
  match d with
  | .Input j => Nat.decLt j r.input_cells.length
  | .Compute j => Nat.decLt j i

/-- Is cell `i` registered in the clients set of its dependency `d`?  (The
coherence half of the graph: every dependency edge has a matching client
edge, established by `create_compute`'s registration loop.) -/
def clientRegistered (r : Reactor α) (i : Nat) : CellID → Prop
  | .Input j => i ∈ r.inputClientsOf j
  | .Compute j => i ∈ r.clientsListOf j

instance (r : Reactor α) (i : Nat) (d : CellID) : Decidable (r.clientRegistered i d) := by
  cases d <;> (unfold clientRegistered; infer_instance)

/-- Well-formedness of a reactor state, maintained by construction by the API:
the cache vector has one entry per compute cell; every compute cell's
dependencies exist and strictly precede it, its clients are in range, its
callback ids are pairwise distinct and below its `next_cbid` counter, and it is
registered as a client of each of its dependencies; every input cell's clients
are in range. -/
def WF (r : Reactor α) : Prop :=
  r.prev_vals.length = r.compute_cells.length ∧
  (∀ i, ∀ h : i < r.compute_cells.length,
    (∀ d ∈ (r.compute_cells.get ⟨i, h⟩).deps, r.depOK i d) ∧
    (∀ j ∈ (r.compute_cells.get ⟨i, h⟩).clients, j < r.compute_cells.length) ∧
    (∀ cb ∈ (r.compute_cells.get ⟨i, h⟩).callbacks,
        cb < (r.compute_cells.get ⟨i, h⟩).next_cbid) ∧
    (r.compute_cells.get ⟨i, h⟩).callbacks.Nodup ∧
    (∀ d ∈ (r.compute_cells.get ⟨i, h⟩).deps, r.clientRegistered i d)) ∧
  (∀ k, ∀ h : k < r.input_cells.length,
    ∀ c ∈ (r.input_cells.get ⟨k, h⟩).clients, c < r.compute_cells.length)

instance (r : Reactor α) : Decidable r.WF := by
  unfold WF; infer_instance

/-- The caches all hold the current denotation: the state of the system between
operations (after every propagation pass has completed). -/
def Settled (r : Reactor α) : Prop :=
  ∀ c, c < r.compute_cells.length → pvAt r.prev_vals c = r.denot c

instance (r : Reactor α) : Decidable r.Settled := by
  unfold Settled; infer_instance

/-- The fire events of trace `tr` on compute cell `c`. -/
def firesOn (tr : List (Event α)) (c : Nat) : List (Event α) :=
  tr.filter fun e => match e with
    | .fire c' _ _ => c' = c
    | _ => false

/-- The client relation of the dependency graph: `b` is a direct client of `a`
(i.e. `b` is in compute cell `a`'s `clients` set). -/
def clientRel (r : Reactor α) (a b : Nat) : Prop := b ∈ r.clientsListOf a

/-- Membership in the transitive closure of the client relation starting from
input cell `idx`'s direct clients — the "affected set" of the specification. -/
def InClosure (r : Reactor α) (idx c : Nat) : Prop :=
  ∃ d ∈ r.inputClientsOf idx, Relation.ReflTransGen r.clientRel d c

/-- The dependency-order half of `WF`, extracted: compute dependencies strictly
precede their dependents and input dependencies exist. -/
def WFdeps (r : Reactor α) : Prop :=
  ∀ k, ∀ hk : k < r.compute_cells.length,
    ∀ d ∈ (r.compute_cells.get ⟨k, hk⟩).deps, r.depOK k d

/-- One segment of a propagation pass: every cell's cache entry is either
untouched, with no callback of that cell firing in the segment, or freshly
settled at the cell's denotation, with every callback registered on the cell
firing exactly once with that value (in registration order). -/
def PassOK (r : Reactor α) (pv pv' : List (Option α)) (tr : List (Event α)) : Prop :=
  ∀ j, (pvAt pv' j = pvAt pv j ∧ firesOn tr j = []) ∨
    (∃ w, r.denot j = some w ∧ pvAt pv' j = some w ∧ pvAt pv j ≠ some w ∧
      firesOn tr j = (r.callbacksOf j).map fun cb => Event.fire j cb w)

/-- Conclusion bundle for one `ComputeCell::call` (`evalCell`): it succeeds,
returns the cell's denotation, preserves the cache length, is a valid pass
segment, settles exactly the cells it evaluates and touches no others, and
records the evaluation of the cell itself. -/
def CellSpec (r : Reactor α) (fuel i : Nat) (pv : List (Option α)) : Prop :=
  ∃ pv' v tr, evalCell r fuel i pv = some (pv', v, tr) ∧
    r.denot i = some v ∧
    pv'.length = pv.length ∧
    PassOK r pv pv' tr ∧
    (∀ j ∈ evalSetF r.compute_cells fuel i, pvAt pv' j = r.denot j) ∧
    (∀ j, j ∉ evalSetF r.compute_cells fuel i →
      pvAt pv' j = pvAt pv j ∧ firesOn tr j = []) ∧
    Event.eval i ∈ tr ∧
    (∀ j, Event.eval j ∈ tr → j ∈ evalSetF r.compute_cells fuel i)

/-- Conclusion bundle for one dependency walk of `ComputeCell::call`. -/
def DepsSpec (r : Reactor α) (fuel : Nat) (ds : List CellID) (pv : List (Option α)) : Prop :=
  ∃ pv' vs tr, evalDepsWith r (evalCell r fuel) ds pv = some (pv', vs, tr) ∧
    depsVals r.input_cells r.denot ds = some vs ∧
    pv'.length = pv.length ∧
    PassOK r pv pv' tr ∧
    (∀ j ∈ evalSetD (evalSetF r.compute_cells fuel) ds, pvAt pv' j = r.denot j) ∧
    (∀ j, j ∉ evalSetD (evalSetF r.compute_cells fuel) ds →
      pvAt pv' j = pvAt pv j ∧ firesOn tr j = []) ∧
    (∀ j, Event.eval j ∈ tr → j ∈ evalSetD (evalSetF r.compute_cells fuel) ds)

/-- The affected-set computation performed by `set_value`: the fixpoint
iteration over the client graph seeded with the input's direct clients, at the
fuel `set_value` uses. -/
def affectedSet (r : Reactor α) (idx : Nat) : Option (Finset Nat) :=
  closLoop r (r.compute_cells.length + 1) (r.inputClientsOf idx).toFinset ∅

end Reactor

/-- Post state of a `create_compute` result (with a fallback for the
unreachable panic case), used to build concrete scenarios. -/
def stateOf {α : Type} (o : Option (Reactor α × Except CellID Nat × List (Event α)))
    (dflt : Reactor α) : Reactor α := (o.map (·.1)).getD dflt

/-- The diamond scenario of the specification, step 1: a reactor with one
input cell `A = 1` (handle `Input 0`). -/
def diamondA : Reactor Int := ((Reactor.new : Reactor Int).create_input 1).1

/-- Step 2: compute cell `B = A + 1` (handle `Compute 0`). -/
def diamondB : Reactor Int :=
  stateOf (diamondA.create_compute [.Input 0] (fun v => (v.get? 0).getD 0 + 1)) diamondA

/-- Step 3: compute cell `C = A + 10` (handle `Compute 1`). -/
def diamondC : Reactor Int :=
  stateOf (diamondB.create_compute [.Input 0] (fun v => (v.get? 0).getD 0 + 10)) diamondB

/-- Step 4: compute cell `D = B + C` (handle `Compute 2`). -/
def diamondD : Reactor Int :=
  stateOf (diamondC.create_compute [.Compute 0, .Compute 1]
    (fun v => (v.get? 0).getD 0 + (v.get? 1).getD 0)) diamondC

/-- Step 5: one callback (id `0`) registered on `D`. -/
def diamondReady : Reactor Int := (diamondD.add_callback 2).1

/-- The `Reactor::remove_callback` of the draft `src/src/lib.rs`: its body is
`unimplemented!(...)`, a macro that unconditionally panics, for every pair of
arguments — modelled as the constant panic marker `none` (contrast with
`Reactor.remove_callback` above, the completed draft, which returns the typed
errors its documentation promises). -/
def src_draft_remove_callback (_cell _cb : Nat) :
    Option (Except RemoveCallbackError Unit) := none


namespace Reactor

variable {α : Type} [DecidableEq α]

theorem pvAt_set_self {pv : List (Option α)} {i : Nat} (h : i < pv.length) (x : Option α) :
    pvAt (pv.set i x) i = x := by
  simp [pvAt, List.getElem?_set_eq_of_lt _ h]

theorem pvAt_set_ne {pv : List (Option α)} {i j : Nat} (h : i ≠ j) (x : Option α) :
    pvAt (pv.set i x) j = pvAt pv j := by
  simp [pvAt, List.getElem?_set_ne h]

theorem pvAt_append_self {pv : List (Option α)} (x : Option α) :
    pvAt (pv ++ [x]) pv.length = x := by
  simp [pvAt, List.getElem?_append_right (Nat.le_refl _)]

theorem firesOn_append (tr1 tr2 : List (Event α)) (c : Nat) :
    firesOn (tr1 ++ tr2) c = firesOn tr1 c ++ firesOn tr2 c :=
  List.filter_append _ _

theorem firesOn_eval (i c : Nat) : firesOn ([Event.eval i] : List (Event α)) c = [] := rfl

theorem firesOn_nil (c : Nat) : firesOn ([] : List (Event α)) c = [] := rfl

theorem firesOn_fire_map (i c : Nat) (cbs : List Nat) (v : α) :
    firesOn (cbs.map fun cb => Event.fire i cb v) c =
      if i = c then cbs.map (fun cb => Event.fire i cb v) else [] := by
  induction cbs with
  | nil => simp [firesOn]
  | cons cb cbs ih =>
    by_cases h : i = c <;> simp_all [firesOn, List.filter_cons]

theorem mem_firesOn {tr : List (Event α)} {c : Nat} {e : Event α} :
    e ∈ firesOn tr c ↔ e ∈ tr ∧ ∃ cb v, e = Event.fire c cb v := by
  constructor
  · intro h
    have h1 := List.mem_of_mem_filter h
    have h2 := List.of_mem_filter h
    refine ⟨h1, ?_⟩
    cases e with
    | eval j => simp at h2
    | fire c' cb v =>
      simp only [decide_eq_true_eq] at h2
      exact ⟨cb, v, by rw [h2]⟩
  · rintro ⟨h1, cb, v, rfl⟩
    exact List.mem_filter.2 ⟨h1, by simp⟩

/-- `depsVals` only looks at input values and at the valuation on the compute
dependencies appearing in the list. -/
theorem depsVals_congr {ics1 ics2 : List (InputCell α)} {dv1 dv2 : Nat → Option α}
    (h1 : ∀ j, (ics1.get? j).map (·.value) = (ics2.get? j).map (·.value))
    (ds : List CellID) (h2 : ∀ j, CellID.Compute j ∈ ds → dv1 j = dv2 j) :
    depsVals ics1 dv1 ds = depsVals ics2 dv2 ds := by
  induction ds with
  | nil => rfl
  | cons d ds ih =>
    have ihds : depsVals ics1 dv1 ds = depsVals ics2 dv2 ds :=
      ih fun j hj => h2 j (List.mem_cons_of_mem _ hj)
    cases d with
    | Input j =>
      have := h1 j
      simp only [depsVals]
      cases hc1 : ics1.get? j with
      | none => cases hc2 : ics2.get? j with
        | none => rfl
        | some ic2 => rw [hc1, hc2] at this; simp at this
      | some ic1 => cases hc2 : ics2.get? j with
        | none => rw [hc1, hc2] at this; simp at this
        | some ic2 =>
          rw [hc1, hc2] at this
          simp only [Option.map_some', Option.some.injEq] at this
          simp [ihds, this]
    | Compute j =>
      have := h2 j (List.mem_cons_self _ _)
      simp only [depsVals, this, ihds]

/-- Indexes at which `depOK` holds are all the evaluator ever needs: the fuel
of `denotF` is irrelevant as long as it exceeds the cell index. -/
theorem denotF_fuel_irrel {ics : List (InputCell α)} {ccs : List (ComputeCell α)}
    (hdeps : ∀ k, ∀ hk : k < ccs.length,
      ∀ d ∈ (ccs.get ⟨k, hk⟩).deps, ∀ j, d = CellID.Compute j → j < k) :
    ∀ i fuel1 fuel2, i < fuel1 → i < fuel2 →
      denotF ics ccs fuel1 i = denotF ics ccs fuel2 i := by
  intro i
  induction i using Nat.strong_induction_on with
  | _ i ih =>
    intro fuel1 fuel2 h1 h2
    match fuel1, fuel2 with
    | f1+1, f2+1 =>
      simp only [denotF]
      cases hc : ccs.get? i with
      | none => rfl
      | some cell =>
        obtain ⟨hlt, hcell⟩ := List.get?_eq_some.1 hc
        have hdv : depsVals ics (denotF ics ccs f1) cell.deps =
            depsVals ics (denotF ics ccs f2) cell.deps := by
          refine depsVals_congr (fun _ => rfl) _ ?_
          intro j hj
          have hji : j < i := hdeps i hlt _ (by rw [hcell]; exact hj) j rfl
          exact ih j hji f1 f2 (Nat.lt_of_lt_of_le hji (Nat.lt_succ_iff.1 h1))
            (Nat.lt_of_lt_of_le hji (Nat.lt_succ_iff.1 h2))
        show (depsVals ics (denotF ics ccs f1) cell.deps).map cell.f =
            (depsVals ics (denotF ics ccs f2) cell.deps).map cell.f
        rw [hdv]


theorem WF.wfdeps {r : Reactor α} (h : r.WF) : r.WFdeps :=
  fun k hk d hd => (h.2.1 k hk).1 d hd

theorem WF.pvlen {r : Reactor α} (h : r.WF) :
    r.prev_vals.length = r.compute_cells.length := h.1

theorem WFdeps.get? {r : Reactor α} (h : r.WFdeps) {k : Nat} {cell : ComputeCell α}
    (hc : r.compute_cells.get? k = some cell) : ∀ d ∈ cell.deps, r.depOK k d := by
  obtain ⟨hk, hcell⟩ := List.get?_eq_some.1 hc
  intro d hd
  exact h k hk d (by rw [hcell]; exact hd)

theorem WFdeps.compute_lt {r : Reactor α} (h : r.WFdeps) {k : Nat} {cell : ComputeCell α}
    (hc : r.compute_cells.get? k = some cell) {j : Nat}
    (hj : CellID.Compute j ∈ cell.deps) : j < k :=
  h.get? hc _ hj

theorem WFdeps.input_lt {r : Reactor α} (h : r.WFdeps) {k : Nat} {cell : ComputeCell α}
    (hc : r.compute_cells.get? k = some cell) {j : Nat}
    (hj : CellID.Input j ∈ cell.deps) : j < r.input_cells.length :=
  h.get? hc _ hj

/-- Restatement of `WFdeps` in the form `denotF_fuel_irrel` expects. -/
theorem WFdeps.forms {r : Reactor α} (h : r.WFdeps) :
    ∀ k, ∀ hk : k < r.compute_cells.length,
      ∀ d ∈ (r.compute_cells.get ⟨k, hk⟩).deps, ∀ j, d = CellID.Compute j → j < k := by
  intro k hk d hd j hj
  subst hj
  exact h k hk _ hd

theorem denotF_eq_denot {r : Reactor α} (h : r.WFdeps) {i fuel : Nat} (hf : i < fuel) :
    denotF r.input_cells r.compute_cells fuel i = r.denot i :=
  denotF_fuel_irrel h.forms i fuel (i + 1) hf (Nat.lt_succ_self i)

/-- The one-step unfolding of `denot` at a cell that exists: the cell's
function applied to the denotations of its dependencies. -/
theorem denot_eq {r : Reactor α} (h : r.WFdeps) {i : Nat} {cell : ComputeCell α}
    (hc : r.compute_cells.get? i = some cell) :
    r.denot i = (depsVals r.input_cells r.denot cell.deps).map cell.f := by
  show denotF r.input_cells r.compute_cells (i + 1) i = _
  simp only [denotF, hc]
  refine congrArg _ (depsVals_congr (fun _ => rfl) _ ?_)
  intro j hj
  exact denotF_eq_denot h (h.compute_lt hc hj)

theorem denot_of_get?_none {r : Reactor α} {i : Nat}
    (hc : r.compute_cells.get? i = none) : r.denot i = none := by
  show denotF r.input_cells r.compute_cells (i + 1) i = none
  simp only [denotF, hc]

theorem denot_lt_of_some {r : Reactor α} {i : Nat} {w : α} (h : r.denot i = some w) :
    i < r.compute_cells.length := by
  by_contra hn
  rw [denot_of_get?_none (List.get?_eq_none.2 (Nat.le_of_not_lt hn))] at h
  exact Option.noConfusion h

/-- Membership in a dependency-walk evaluation set comes from some compute
dependency in the list. -/
theorem mem_evalSetD {es : Nat → List Nat} {ds : List CellID} {j : Nat} :
    j ∈ evalSetD es ds ↔ ∃ j', CellID.Compute j' ∈ ds ∧ j ∈ es j' := by
  induction ds with
  | nil => simp [evalSetD]
  | cons d ds ih =>
    cases d with
    | Input k =>
      simp only [evalSetD, ih]
      constructor
      · rintro ⟨j', hj', hm⟩; exact ⟨j', List.mem_cons_of_mem _ hj', hm⟩
      · rintro ⟨j', hj', hm⟩
        rcases List.mem_cons.1 hj' with h | h
        · exact absurd h (by simp)
        · exact ⟨j', h, hm⟩
    | Compute k =>
      simp only [evalSetD, List.mem_append, ih]
      constructor
      · rintro (hm | ⟨j', hj', hm⟩)
        · exact ⟨k, List.mem_cons_self _ _, hm⟩
        · exact ⟨j', List.mem_cons_of_mem _ hj', hm⟩
      · rintro ⟨j', hj', hm⟩
        rcases List.mem_cons.1 hj' with h | h
        · cases h; exact Or.inl hm
        · exact Or.inr ⟨j', h, hm⟩

/-- Under the dependency order, the evaluation set of cell `i` contains only
cells of index at most `i`. -/
theorem evalSetF_le {r : Reactor α} (h : r.WFdeps) :
    ∀ fuel i j, j ∈ evalSetF r.compute_cells fuel i → j ≤ i := by
  intro fuel
  induction fuel with
  | zero => intro i j hj; simp [evalSetF] at hj
  | succ fuel ih =>
    intro i j hj
    simp only [evalSetF] at hj
    cases hc : r.compute_cells.get? i with
    | none => rw [hc] at hj; simp at hj
    | some cell =>
      rw [hc] at hj
      rcases List.mem_append.1 hj with hm | hm
      · obtain ⟨j', hj', hmm⟩ := mem_evalSetD.1 hm
        have hj'i : j' < i := h.compute_lt hc hj'
        exact Nat.le_of_lt (Nat.lt_of_le_of_lt (ih j' j hmm) hj'i)
      · simp only [List.mem_singleton] at hm
        exact Nat.le_of_eq hm

/-- The evaluation set of an existing cell contains the cell itself. -/
theorem self_mem_evalSetF {r : Reactor α} {fuel i : Nat} {cell : ComputeCell α}
    (hc : r.compute_cells.get? i = some cell) :
    i ∈ evalSetF r.compute_cells (fuel + 1) i := by
  simp only [evalSetF, hc]
  exact List.mem_append_right _ (List.mem_singleton_self _)

theorem callbacksOf_eq {r : Reactor α} {i : Nat} {cell : ComputeCell α}
    (hc : r.compute_cells.get? i = some cell) : r.callbacksOf i = cell.callbacks := by
  simp only [callbacksOf, hc, Option.map_some', Option.getD_some]


theorem PassOK.nil (r : Reactor α) (pv : List (Option α)) : PassOK r pv pv [] :=
  fun _ => Or.inl ⟨rfl, rfl⟩

/-- Pass segments compose: a cell settled by the first segment is left alone by
the second (its cache already equals its denotation), so each cell still fires
at most once over the concatenation. -/
theorem PassOK.append {r : Reactor α} {pv pv1 pv2 : List (Option α)}
    {tr1 tr2 : List (Event α)} (h1 : PassOK r pv pv1 tr1) (h2 : PassOK r pv1 pv2 tr2) :
    PassOK r pv pv2 (tr1 ++ tr2) := by
  intro j
  rw [firesOn_append]
  rcases h1 j with ⟨e1, f1⟩ | ⟨w, hw, e1, ne1, f1⟩
  · rcases h2 j with ⟨e2, f2⟩ | ⟨w, hw, e2, ne2, f2⟩
    · exact Or.inl ⟨e2.trans e1, by simp [f1, f2]⟩
    · exact Or.inr ⟨w, hw, e2, fun hcon => ne2 (e1.trans hcon), by simp [f1, f2]⟩
  · rcases h2 j with ⟨e2, f2⟩ | ⟨w', hw', e2, ne2, f2⟩
    · exact Or.inr ⟨w, hw, e2.trans e1, ne1, by simp [f1, f2]⟩
    · have hww : w = w' := Option.some.inj (hw.symm.trans hw')
      exact absurd (e1.trans (congrArg some hww)) ne2

/-- A cache entry already equal to its denotation survives any pass segment. -/
theorem PassOK.settled_mono {r : Reactor α} {pv pv' : List (Option α)}
    {tr : List (Event α)} (h : PassOK r pv pv' tr) {j : Nat}
    (hs : pvAt pv j = r.denot j) : pvAt pv' j = r.denot j := by
  rcases h j with ⟨e, _⟩ | ⟨w, hw, e, _, _⟩
  · rw [e, hs]
  · rw [e, hw]

/-- Appending a pure evaluation event to the trace preserves `PassOK`. -/
theorem PassOK.push_eval {r : Reactor α} {pv pv' : List (Option α)}
    {tr : List (Event α)} (h : PassOK r pv pv' tr) (k : Nat) :
    PassOK r pv pv' (tr ++ [Event.eval k]) := by
  intro j
  rw [firesOn_append, firesOn_eval, List.append_nil]
  exact h j



/-- The dependency walk satisfies its bundle provided every single-cell call at
this fuel does. -/
theorem depsSpec_of_cellSpec {r : Reactor α} {fuel : Nat}
    (ih : ∀ i pv, i < r.compute_cells.length → i < fuel →
      pv.length = r.compute_cells.length → CellSpec r fuel i pv)
    {ds : List CellID}
    (hds : ∀ d ∈ ds, (∀ j, d = CellID.Input j → j < r.input_cells.length) ∧
      (∀ j, d = CellID.Compute j → j < r.compute_cells.length ∧ j < fuel)) :
    ∀ pv, pv.length = r.compute_cells.length → DepsSpec r fuel ds pv := by
  induction ds with
  | nil =>
    intro pv hpv
    refine ⟨pv, [], [], rfl, rfl, rfl, PassOK.nil r pv, ?_, fun j _ => ⟨rfl, rfl⟩, ?_⟩
    · intro j hj
      simp [evalSetD] at hj
    · intro j hj
      simp at hj
  | cons d ds ihds =>
    intro pv hpv
    have hds' : ∀ d ∈ ds, (∀ j, d = CellID.Input j → j < r.input_cells.length) ∧
        (∀ j, d = CellID.Compute j → j < r.compute_cells.length ∧ j < fuel) :=
      fun d hd => hds d (List.mem_cons_of_mem _ hd)
    cases d with
    | Input k =>
      have hk : k < r.input_cells.length :=
        (hds _ (List.mem_cons_self _ _)).1 k rfl
      obtain ⟨ic, hic⟩ : ∃ ic, r.input_cells.get? k = some ic :=
        ⟨_, List.get?_eq_get hk⟩
      obtain ⟨pv', vs, tr, heq, hdv, hlen, hpass, hset, hout, hev⟩ := ihds hds' pv hpv
      refine ⟨pv', ic.value :: vs, tr, ?_, ?_, hlen, hpass, ?_, ?_, ?_⟩
      · simp only [evalDepsWith, hic, heq]
      · simp only [depsVals, hic, hdv, Option.map_some']
      · intro j hj
        exact hset j hj
      · intro j hj
        exact hout j hj
      · intro j hj
        exact hev j hj
    | Compute k =>
      have hk := (hds _ (List.mem_cons_self _ _)).2 k rfl
      obtain ⟨pv1, v, tr1, heq1, hden1, hlen1, hpass1, hset1, hout1, hself1, hev1⟩ :=
        ih k pv hk.1 hk.2 hpv
      obtain ⟨pv2, vs, tr2, heq2, hdv2, hlen2, hpass2, hset2, hout2, hev2⟩ :=
        ihds hds' pv1 (hlen1.trans hpv)
      refine ⟨pv2, v :: vs, tr1 ++ tr2, ?_, ?_, hlen2.trans hlen1, hpass1.append hpass2,
        ?_, ?_, ?_⟩
      · simp only [evalDepsWith, heq1, heq2]
      · simp only [depsVals, hden1, hdv2, Option.map_some']
      · intro j hj
        simp only [evalSetD, List.mem_append] at hj
        rcases hj with hj | hj
        · exact hpass2.settled_mono (hset1 j hj)
        · exact hset2 j hj
      · intro j hj
        simp only [evalSetD] at hj
        have hj1 : j ∉ evalSetF r.compute_cells fuel k :=
          fun h => hj (List.mem_append_left _ h)
        have hj2 : j ∉ evalSetD (evalSetF r.compute_cells fuel) ds :=
          fun h => hj (List.mem_append_right _ h)
        obtain ⟨h1, h2⟩ := hout1 j hj1
        obtain ⟨h3, h4⟩ := hout2 j hj2
        exact ⟨h3.trans h1, by simp [firesOn_append, h2, h4]⟩
      · intro j hj
        simp only [evalSetD, List.mem_append]
        rcases List.mem_append.1 hj with hj | hj
        · exact Or.inl (hev1 j hj)
        · exact Or.inr (hev2 j hj)

/-- The central specification of `ComputeCell::call`: under the dependency
order invariant and with sufficient fuel, a call on an existing cell succeeds,
returns the cell's denotation, settles the caches of all evaluated cells at
their denotations, leaves every other cache entry untouched, and fires each
cell's callbacks exactly when its cache entry moves (necessarily to the cell's
denotation), once per registered callback, with the denotation as argument. -/
theorem evalCell_spec {r : Reactor α} (hdeps : r.WFdeps) :
    ∀ fuel, ∀ i pv, i < r.compute_cells.length → i < fuel →
      pv.length = r.compute_cells.length → CellSpec r fuel i pv := by
  intro fuel
  induction fuel with
  | zero => intro i pv _ hif _; exact absurd hif (Nat.not_lt_zero i)
  | succ fuel ih =>
    intro i pv hiN _ hpv
    obtain ⟨cell, hc⟩ : ∃ cell, r.compute_cells.get? i = some cell :=
      ⟨_, List.get?_eq_get hiN⟩
    have hds : ∀ d ∈ cell.deps, (∀ j, d = CellID.Input j → j < r.input_cells.length) ∧
        (∀ j, d = CellID.Compute j → j < r.compute_cells.length ∧ j < fuel) := by
      intro d hd
      constructor
      · rintro j rfl
        exact hdeps.input_lt hc hd
      · rintro j rfl
        have hji : j < i := hdeps.compute_lt hc hd
        exact ⟨Nat.lt_trans hji hiN, Nat.lt_of_lt_of_le hji (Nat.lt_succ_iff.1 ‹i < fuel + 1›)⟩
    obtain ⟨pv1, vals, tr1, heq1, hdv, hlen1, hpass1, hset1, hout1, hev1⟩ :=
      depsSpec_of_cellSpec ih hds pv hpv
    have hnv : r.denot i = some (cell.f vals) := by
      rw [denot_eq hdeps hc, hdv, Option.map_some']
    have hiout : i ∉ evalSetD (evalSetF r.compute_cells fuel) cell.deps := by
      intro hmem
      obtain ⟨j', hj', hmm⟩ := mem_evalSetD.1 hmem
      have h1 : i ≤ j' := evalSetF_le hdeps fuel j' i hmm
      exact absurd (hdeps.compute_lt hc hj') (Nat.not_lt_of_le h1)
    obtain ⟨hpv1i, hfire1i⟩ := hout1 i hiout
    have hsetF : evalSetF r.compute_cells (fuel + 1) i =
        evalSetD (evalSetF r.compute_cells fuel) cell.deps ++ [i] := by
      simp only [evalSetF, hc]
    by_cases hcache : pvAt pv1 i = some (cell.f vals)
    · refine ⟨pv1, cell.f vals, tr1 ++ [Event.eval i], ?_, hnv, hlen1,
        hpass1.push_eval i, ?_, ?_, List.mem_append_right _ (List.mem_singleton_self _), ?_⟩
      · simp only [evalCell, hc, heq1, hcache, if_pos]
      · intro j hj
        rw [hsetF] at hj
        rcases List.mem_append.1 hj with hj | hj
        · exact hset1 j hj
        · simp only [List.mem_singleton] at hj
          subst hj
          rw [hcache, hnv]
      · intro j hj
        rw [hsetF] at hj
        have hj1 : j ∉ evalSetD (evalSetF r.compute_cells fuel) cell.deps :=
          fun h => hj (List.mem_append_left _ h)
        obtain ⟨h1, h2⟩ := hout1 j hj1
        exact ⟨h1, by simp [firesOn_append, h2, firesOn_eval]⟩
      · intro j hj
        rw [hsetF]
        rcases List.mem_append.1 hj with hj | hj
        · exact List.mem_append_left _ (hev1 j hj)
        · simp only [List.mem_singleton, Event.eval.injEq] at hj
          subst hj
          exact List.mem_append_right _ (List.mem_singleton_self _)
    · have hlt1 : i < pv1.length := by rw [hlen1, hpv]; exact hiN
      refine ⟨pv1.set i (some (cell.f vals)), cell.f vals,
        tr1 ++ [Event.eval i] ++ cell.callbacks.map (fun cb => Event.fire i cb (cell.f vals)),
        ?_, hnv, by rw [List.length_set, hlen1], ?_, ?_, ?_,
        List.mem_append_left _ (List.mem_append_right _ (List.mem_singleton_self _)), ?_⟩
      · simp only [evalCell, hc, heq1, hcache, if_neg, if_false]
      · -- the combined segment is a valid pass segment
        intro j
        by_cases hji : j = i
        · subst hji
          refine Or.inr ⟨cell.f vals, hnv, pvAt_set_self hlt1 _, hpv1i ▸ hcache, ?_⟩
          rw [firesOn_append, firesOn_append, hfire1i, firesOn_eval, firesOn_fire_map,
            if_pos rfl, callbacksOf_eq hc]
          simp
        · have hfj : firesOn (tr1 ++ [Event.eval i] ++
              cell.callbacks.map fun cb => Event.fire i cb (cell.f vals)) j = firesOn tr1 j := by
            rw [firesOn_append, firesOn_append, firesOn_eval, firesOn_fire_map,
              if_neg (fun h => hji h.symm)]
            simp
          have hpj : pvAt (pv1.set i (some (cell.f vals))) j = pvAt pv1 j :=
            pvAt_set_ne (fun h => hji h.symm) _
          rcases hpass1 j with ⟨e1, f1⟩ | ⟨w, hw, e1, ne1, f1⟩
          · exact Or.inl ⟨hpj.trans e1, by rw [hfj, f1]⟩
          · exact Or.inr ⟨w, hw, hpj.trans e1, ne1, by rw [hfj, f1]⟩
      · intro j hj
        rw [hsetF] at hj
        rcases List.mem_append.1 hj with hj | hj
        · have hjne : j ≠ i := by
            intro h
            exact hiout (h ▸ hj)
          rw [pvAt_set_ne (fun h => hjne h.symm)]
          exact hset1 j hj
        · simp only [List.mem_singleton] at hj
          subst hj
          rw [pvAt_set_self hlt1, hnv]
      · intro j hj
        rw [hsetF] at hj
        simp only [List.mem_append, List.mem_singleton, not_or] at hj
        obtain ⟨h1, h2⟩ := hout1 j hj.1
        refine ⟨?_, ?_⟩
        · rw [pvAt_set_ne (fun h => hj.2 h.symm), h1]
        · rw [firesOn_append, firesOn_append, h2, firesOn_eval, firesOn_fire_map,
            if_neg (fun h => hj.2 h.symm), List.append_nil, List.append_nil]
      · intro j hj
        rw [hsetF]
        rcases List.mem_append.1 hj with hj | hj
        · rcases List.mem_append.1 hj with hj | hj
          · exact List.mem_append_left _ (hev1 j hj)
          · simp only [List.mem_singleton, Event.eval.injEq] at hj
            subst hj
            exact List.mem_append_right _ (List.mem_singleton_self _)
        · exact absurd hj (by simp)

theorem self_mem_evalSetF' {r : Reactor α} {fuel i : Nat} {cell : ComputeCell α}
    (hc : r.compute_cells.get? i = some cell) (hf : 0 < fuel) :
    i ∈ evalSetF r.compute_cells fuel i := by
  cases fuel with
  | zero => exact absurd hf (Nat.lt_irrefl 0)
  | succ fuel => exact self_mem_evalSetF hc

/-- A dependency walk on caches already settled at their denotations changes
nothing and fires no callback. -/
theorem depsStable_of_cellStable {r : Reactor α} {fuel : Nat}
    (ih : ∀ i pv, i < r.compute_cells.length → i < fuel →
      pv.length = r.compute_cells.length →
      (∀ j ∈ evalSetF r.compute_cells fuel i, pvAt pv j = r.denot j) →
      ∃ v tr, evalCell r fuel i pv = some (pv, v, tr) ∧ r.denot i = some v ∧
        ∀ j, firesOn tr j = [])
    {ds : List CellID}
    (hds : ∀ d ∈ ds, (∀ j, d = CellID.Input j → j < r.input_cells.length) ∧
      (∀ j, d = CellID.Compute j → j < r.compute_cells.length ∧ j < fuel)) :
    ∀ pv, pv.length = r.compute_cells.length →
      (∀ j ∈ evalSetD (evalSetF r.compute_cells fuel) ds, pvAt pv j = r.denot j) →
      ∃ vs tr, evalDepsWith r (evalCell r fuel) ds pv = some (pv, vs, tr) ∧
        depsVals r.input_cells r.denot ds = some vs ∧ ∀ j, firesOn tr j = [] := by
  induction ds with
  | nil =>
    intro pv hpv _
    exact ⟨[], [], rfl, rfl, fun _ => rfl⟩
  | cons d ds ihds =>
    intro pv hpv hset
    have hds' : ∀ d ∈ ds, (∀ j, d = CellID.Input j → j < r.input_cells.length) ∧
        (∀ j, d = CellID.Compute j → j < r.compute_cells.length ∧ j < fuel) :=
      fun d hd => hds d (List.mem_cons_of_mem _ hd)
    cases d with
    | Input k =>
      have hk : k < r.input_cells.length :=
        (hds _ (List.mem_cons_self _ _)).1 k rfl
      obtain ⟨ic, hic⟩ : ∃ ic, r.input_cells.get? k = some ic :=
        ⟨_, List.get?_eq_get hk⟩
      obtain ⟨vs, tr, heq, hdv, hfires⟩ := ihds hds' pv hpv (fun j hj => hset j hj)
      exact ⟨ic.value :: vs, tr, by simp only [evalDepsWith, hic, heq],
        by simp only [depsVals, hic, hdv, Option.map_some'], hfires⟩
    | Compute k =>
      have hk := (hds _ (List.mem_cons_self _ _)).2 k rfl
      have hsetk : ∀ j ∈ evalSetF r.compute_cells fuel k, pvAt pv j = r.denot j := by
        intro j hj
        refine hset j ?_
        simp only [evalSetD]
        exact List.mem_append_left _ hj
      obtain ⟨v, tr1, heq1, hden1, hfires1⟩ := ih k pv hk.1 hk.2 hpv hsetk
      obtain ⟨vs, tr2, heq2, hdv2, hfires2⟩ := ihds hds' pv hpv (fun j hj => hset j
        (by simp only [evalSetD]; exact List.mem_append_right _ hj))
      refine ⟨v :: vs, tr1 ++ tr2, by simp only [evalDepsWith, heq1, heq2],
        by simp only [depsVals, hden1, hdv2, Option.map_some'], ?_⟩
      intro j
      rw [firesOn_append, hfires1 j, hfires2 j]
      rfl

/-- A `ComputeCell::call` on a state whose relevant caches are already settled
is a read-only no-op: the caches are returned unchanged and no callback fires
(re-reads are observationally pure once the state has settled). -/
theorem evalCell_stable {r : Reactor α} (hdeps : r.WFdeps) :
    ∀ fuel i pv, i < r.compute_cells.length → i < fuel →
      pv.length = r.compute_cells.length →
      (∀ j ∈ evalSetF r.compute_cells fuel i, pvAt pv j = r.denot j) →
      ∃ v tr, evalCell r fuel i pv = some (pv, v, tr) ∧ r.denot i = some v ∧
        ∀ j, firesOn tr j = [] := by
  intro fuel
  induction fuel with
  | zero => intro i pv _ hif _ _; exact absurd hif (Nat.not_lt_zero i)
  | succ fuel ih =>
    intro i pv hiN hif hpv hset
    obtain ⟨cell, hc⟩ : ∃ cell, r.compute_cells.get? i = some cell :=
      ⟨_, List.get?_eq_get hiN⟩
    have hds : ∀ d ∈ cell.deps, (∀ j, d = CellID.Input j → j < r.input_cells.length) ∧
        (∀ j, d = CellID.Compute j → j < r.compute_cells.length ∧ j < fuel) := by
      intro d hd
      constructor
      · rintro j rfl
        exact hdeps.input_lt hc hd
      · rintro j rfl
        have hji : j < i := hdeps.compute_lt hc hd
        exact ⟨Nat.lt_trans hji hiN, Nat.lt_of_lt_of_le hji (Nat.lt_succ_iff.1 hif)⟩
    have hsetF : evalSetF r.compute_cells (fuel + 1) i =
        evalSetD (evalSetF r.compute_cells fuel) cell.deps ++ [i] := by
      simp only [evalSetF, hc]
    obtain ⟨vals, tr1, heq1, hdv, hfires1⟩ :=
      depsStable_of_cellStable ih hds pv hpv (fun j hj => hset j
        (by rw [hsetF]; exact List.mem_append_left _ hj))
    have hnv : r.denot i = some (cell.f vals) := by
      rw [denot_eq hdeps hc, hdv, Option.map_some']
    have hcache : pvAt pv i = some (cell.f vals) := by
      rw [hset i (by rw [hsetF]; exact List.mem_append_right _ (List.mem_singleton_self _)),
        hnv]
    refine ⟨cell.f vals, tr1 ++ [Event.eval i], ?_, hnv, ?_⟩
    · simp only [evalCell, hc, heq1, hcache, if_pos]
    · intro j
      rw [firesOn_append, hfires1 j, firesOn_eval]
      rfl

/-- Specification of the final loop of `set_value`: the sequence of
`ComputeCell::call`s succeeds, forms one pass segment, and leaves every listed
cell's cache settled at its denotation, having evaluated each listed cell. -/
theorem runCalls_spec {r : Reactor α} (hdeps : r.WFdeps) :
    ∀ cs pv, (∀ c ∈ cs, c < r.compute_cells.length) →
      pv.length = r.compute_cells.length →
      ∃ pv' tr, runCalls r cs pv = some (pv', tr) ∧
        pv'.length = r.compute_cells.length ∧
        PassOK r pv pv' tr ∧
        (∀ c ∈ cs, pvAt pv' c = r.denot c) ∧
        (∀ c ∈ cs, Event.eval c ∈ tr) := by
  intro cs
  induction cs with
  | nil =>
    intro pv _ hpv
    exact ⟨pv, [], rfl, hpv, PassOK.nil r pv, by simp, by simp⟩
  | cons c cs ih =>
    intro pv hcs hpv
    have hcN : c < r.compute_cells.length := hcs c (List.mem_cons_self _ _)
    obtain ⟨pv1, v, tr1, heq1, hden1, hlen1, hpass1, hset1, hout1, hself1, hev1⟩ :=
      evalCell_spec hdeps r.compute_cells.length c pv hcN hcN hpv
    obtain ⟨cell, hc⟩ : ∃ cell, r.compute_cells.get? c = some cell :=
      ⟨_, List.get?_eq_get hcN⟩
    obtain ⟨pv2, tr2, heq2, hlen2, hpass2, hset2, hev2⟩ :=
      ih pv1 (fun c' hc' => hcs c' (List.mem_cons_of_mem _ hc')) (hlen1.trans hpv)
    refine ⟨pv2, tr1 ++ tr2, ?_, hlen2, hpass1.append hpass2, ?_, ?_⟩
    · simp only [runCalls, heq1, heq2]
    · intro c' hc'
      rcases List.mem_cons.1 hc' with hc' | hc'
      · subst hc'
        exact hpass2.settled_mono
          (hset1 c' (self_mem_evalSetF' hc (Nat.lt_of_le_of_lt (Nat.zero_le _) hcN)))
      · exact hset2 c' hc'
    · intro c' hc'
      rcases List.mem_cons.1 hc' with hc' | hc'
      · subst hc'
        exact List.mem_append_left _ hself1
      · exact List.mem_append_right _ (hev2 c' hc')

theorem mem_clientsOf_iff {r : Reactor α} {a y : Nat} :
    y ∈ clientsOf r a ↔ y ∈ r.clientsListOf a := by
  unfold clientsOf clientsListOf
  cases r.compute_cells.get? a with
  | none => simp
  | some cell => simp

theorem closStep_left_subset (r : Reactor α) (c1 c2 : Finset Nat) :
    c1 ⊆ (closStep r c1 c2).1 :=
  Finset.subset_union_left

theorem subset_closStep_right (r : Reactor α) (c1 c2 : Finset Nat) :
    c1 ⊆ (closStep r c1 c2).2 := by
  unfold closStep
  intro x hx
  exact Finset.mem_union_left _ (Finset.mem_union_right _ hx)

theorem closStep_right_subset_left {r : Reactor α} {c1 c2 : Finset Nat}
    (h : c2 ⊆ c1) : (closStep r c1 c2).2 ⊆ (closStep r c1 c2).1 := by
  unfold closStep
  intro x hx
  simp only [Finset.mem_union] at hx
  rcases hx with (hx | hx) | hx
  · exact Finset.mem_union_left _ (h hx)
  · exact Finset.mem_union_left _ hx
  · obtain ⟨a, ha, hxa⟩ := Finset.mem_biUnion.1 hx
    refine Finset.mem_union_right _ (Finset.mem_biUnion.2 ⟨a, ?_, hxa⟩)
    exact Finset.mem_union_left _ (Finset.mem_union_right _ ha)

theorem closStep_done_of_left_fixed {r : Reactor α} {c1 c2 : Finset Nat}
    (h : c2 ⊆ c1) (hfix : (closStep r c1 c2).1 = c1) :
    (closStep r c1 c2).1 = (closStep r c1 c2).2 := by
  refine Finset.Subset.antisymm ?_ (closStep_right_subset_left h)
  rw [hfix]
  exact subset_closStep_right r c1 c2

/-- The fixpoint loop of `set_value`, fully specified: with fuel at least
`compute_cells.length + 1` it terminates, and (for any property `P` that holds
on the seeds and is closed under the client relation and bounded by the cell
count) returns a set of `P`-cells containing the seeds and closed under the
client relation. -/
theorem closLoop_spec {r : Reactor α} (P : Nat → Prop)
    (hPcl : ∀ a b, P a → b ∈ clientsOf r a → P b)
    (hPbnd : ∀ c, P c → c < r.compute_cells.length) :
    ∀ fuel c1 c2, c2 ⊆ c1 → (∀ x ∈ c1, P x) → (∀ x ∈ c2, P x) →
      r.compute_cells.length + 1 ≤ fuel + c1.card →
      ∃ S, closLoop r fuel c1 c2 = some S ∧ c1 ⊆ S ∧ (∀ x ∈ S, P x) ∧
        (∀ x ∈ S, ∀ y ∈ clientsOf r x, y ∈ S) := by
  intro fuel
  induction fuel with
  | zero =>
    intro c1 c2 _ hP1 _ hfuel
    exfalso
    have hsub : c1 ⊆ Finset.range r.compute_cells.length := by
      intro x hx
      exact Finset.mem_range.2 (hPbnd x (hP1 x hx))
    have := Finset.card_le_card hsub
    rw [Finset.card_range] at this
    omega
  | succ fuel ih =>
    intro c1 c2 hc21 hP1 hP2 hfuel
    have hP2' : ∀ x ∈ (closStep r c1 c2).2, P x := by
      unfold closStep
      intro x hx
      simp only [Finset.mem_union] at hx
      rcases hx with (hx | hx) | hx
      · exact hP2 x hx
      · exact hP1 x hx
      · obtain ⟨a, ha, hxa⟩ := Finset.mem_biUnion.1 hx
        exact hPcl a x (hP1 a ha) hxa
    have hP1' : ∀ x ∈ (closStep r c1 c2).1, P x := by
      intro x hx
      rcases Finset.mem_union.1 hx with hx | hx
      · exact hP1 x hx
      · obtain ⟨a, ha, hxa⟩ := Finset.mem_biUnion.1 hx
        exact hPcl a x (hP2' a ha) hxa
    by_cases hdone : (closStep r c1 c2).1 = (closStep r c1 c2).2
    · refine ⟨(closStep r c1 c2).1, ?_, closStep_left_subset r c1 c2, hP1', ?_⟩
      · simp only [closLoop, hdone, if_pos]
      · intro x hx y hy
        have hx2 : x ∈ (closStep r c1 c2).2 := hdone ▸ hx
        show y ∈ (closStep r c1 c2).1
        simp only [closStep] at hx2 ⊢
        exact Finset.mem_union_right _ (Finset.mem_biUnion.2 ⟨x, hx2, hy⟩)
    · have hstrict : c1 ⊂ (closStep r c1 c2).1 := by
        refine Finset.ssubset_iff_subset_ne.2 ⟨closStep_left_subset r c1 c2, ?_⟩
        intro hcon
        exact hdone (closStep_done_of_left_fixed hc21 hcon.symm)
      have hcard : c1.card < (closStep r c1 c2).1.card := Finset.card_lt_card hstrict
      obtain ⟨S, hS, hsub, hPS, hcl⟩ := ih (closStep r c1 c2).1 (closStep r c1 c2).2
        (closStep_right_subset_left hc21) hP1' hP2' (by omega)
      refine ⟨S, ?_, (closStep_left_subset r c1 c2).trans hsub, hPS, hcl⟩
      simp only [closLoop, hdone, if_false, if_neg hdone]
      exact hS

/-- Applied to `set_value`'s start state: the loop computes exactly the
transitive closure of the client relation from the input's direct clients. -/
theorem closLoop_closure {r : Reactor α} (hWF : r.WF) {k : Nat} {ic : InputCell α}
    (hic : r.input_cells.get? k = some ic) :
    ∃ S, closLoop r (r.compute_cells.length + 1) ic.clients.toFinset ∅ = some S ∧
      ∀ c, c ∈ S ↔ r.InClosure k c := by
  have hicl : r.inputClientsOf k = ic.clients := by
    simp only [inputClientsOf, hic, Option.map_some', Option.getD_some]
  have hPbnd : ∀ c, r.InClosure k c → c < r.compute_cells.length := by
    rintro c ⟨d, hd, hrtg⟩
    rw [hicl] at hd
    induction hrtg with
    | refl =>
      obtain ⟨hk, hget⟩ := List.get?_eq_some.1 hic
      exact hWF.2.2 k hk d (by rw [hget]; exact hd)
    | tail hab hbc ihd =>
      rename_i b c'
      unfold clientRel clientsListOf at hbc
      cases hb : r.compute_cells.get? b with
      | none => rw [hb] at hbc; simp at hbc
      | some cellb =>
        rw [hb] at hbc
        simp only [Option.map_some', Option.getD_some] at hbc
        obtain ⟨hbN, hgetb⟩ := List.get?_eq_some.1 hb
        exact (hWF.2.1 b hbN).2.1 c' (by rw [hgetb]; exact hbc)
  have hPcl : ∀ a b, r.InClosure k a → b ∈ clientsOf r a → r.InClosure k b := by
    rintro a b ⟨d, hd, hrtg⟩ hb
    exact ⟨d, hd, hrtg.tail (mem_clientsOf_iff.1 hb)⟩
  have hseed : ∀ x ∈ ic.clients.toFinset, r.InClosure k x := by
    intro x hx
    exact ⟨x, by rw [hicl]; exact List.mem_toFinset.1 hx, Relation.ReflTransGen.refl⟩
  obtain ⟨S, hS, hsub, hPS, hcl⟩ := closLoop_spec (r.InClosure k) hPcl hPbnd
    (r.compute_cells.length + 1) ic.clients.toFinset ∅ (Finset.empty_subset _)
    hseed (by simp) (by omega)
  refine ⟨S, hS, ?_⟩
  intro c
  constructor
  · exact hPS c
  · rintro ⟨d, hd, hrtg⟩
    rw [hicl] at hd
    induction hrtg with
    | refl => exact hsub (List.mem_toFinset.2 hd)
    | tail hab hbc ihd =>
      rename_i b c'
      exact hcl b ihd c' (mem_clientsOf_iff.2 hbc)

/-- `denotF` depends only on input values and on the cells' dependency lists
and functions (not on clients, callbacks or counters). -/
theorem denotF_congr {ics1 ics2 : List (InputCell α)} {ccs1 ccs2 : List (ComputeCell α)}
    (h1 : ∀ j, (ics1.get? j).map (·.value) = (ics2.get? j).map (·.value))
    (h2 : ∀ i, (ccs1.get? i).map (fun c => (c.deps, c.f)) =
      (ccs2.get? i).map (fun c => (c.deps, c.f))) :
    ∀ fuel i, denotF ics1 ccs1 fuel i = denotF ics2 ccs2 fuel i := by
  intro fuel
  induction fuel with
  | zero => intro i; rfl
  | succ fuel ih =>
    intro i
    have h2i := h2 i
    simp only [denotF]
    cases hc1 : ccs1.get? i with
    | none =>
      cases hc2 : ccs2.get? i with
      | none => rfl
      | some c2 => rw [hc1, hc2] at h2i; simp at h2i
    | some c1 =>
      cases hc2 : ccs2.get? i with
      | none => rw [hc1, hc2] at h2i; simp at h2i
      | some c2 =>
        rw [hc1, hc2] at h2i
        simp only [Option.map_some', Option.some.injEq, Prod.mk.injEq] at h2i
        show (depsVals ics1 (denotF ics1 ccs1 fuel) c1.deps).map c1.f =
          (depsVals ics2 (denotF ics2 ccs2 fuel) c2.deps).map c2.f
        rw [depsVals_congr h1 c1.deps (fun j _ => ih j), h2i.1, h2i.2]

/-- The projections of the reactor state that `registerOne` leaves untouched:
everything except the `clients` sets. -/
theorem registerOne_proj (r : Reactor α) (cid : Nat) (d : CellID) :
    (registerOne r cid d).input_cells.length = r.input_cells.length ∧
    (registerOne r cid d).compute_cells.length = r.compute_cells.length ∧
    (∀ j, ((registerOne r cid d).input_cells.get? j).map (·.value) =
      (r.input_cells.get? j).map (·.value)) ∧
    (∀ i, ((registerOne r cid d).compute_cells.get? i).map
        (fun c => (c.deps, c.f, c.callbacks, c.next_cbid)) =
      (r.compute_cells.get? i).map (fun c => (c.deps, c.f, c.callbacks, c.next_cbid))) ∧
    (registerOne r cid d).prev_vals = r.prev_vals := by
  cases d with
  | Input j =>
    cases hic : r.input_cells.get? j with
    | none =>
      have hre : registerOne r cid (CellID.Input j) = r := by
        simp only [registerOne, hic]
      rw [hre]
      exact ⟨rfl, rfl, fun _ => rfl, fun _ => rfl, rfl⟩
    | some ic =>
      have hre : registerOne r cid (CellID.Input j) = { r with input_cells := r.input_cells.set j ({ ic with clients := addClient ic.clients cid }) } := by
        simp only [registerOne, hic]
      rw [hre]
      refine ⟨List.length_set _ _ _, rfl, ?_, fun _ => rfl, rfl⟩
      intro j'
      by_cases hjj : j = j'
      · subst hjj
        show ((r.input_cells.set j _).get? j).map _ = _
        rw [List.get?_set_eq_of_lt _ (List.get?_eq_some.1 hic).1, hic]
        rfl
      · show ((r.input_cells.set j _).get? j').map _ = _
        rw [List.get?_set_ne _ _ hjj]
  | Compute j =>
    cases hcc : r.compute_cells.get? j with
    | none =>
      have hre : registerOne r cid (CellID.Compute j) = r := by
        simp only [registerOne, hcc]
      rw [hre]
      exact ⟨rfl, rfl, fun _ => rfl, fun _ => rfl, rfl⟩
    | some c =>
      have hre : registerOne r cid (CellID.Compute j) = { r with compute_cells := r.compute_cells.set j ({ c with clients := addClient c.clients cid }) } := by
        simp only [registerOne, hcc]
      rw [hre]
      refine ⟨rfl, List.length_set _ _ _, fun _ => rfl, ?_, rfl⟩
      intro i
      by_cases hji : j = i
      · subst hji
        show ((r.compute_cells.set j _).get? j).map _ = _
        rw [List.get?_set_eq_of_lt _ (List.get?_eq_some.1 hcc).1, hcc]
        rfl
      · show ((r.compute_cells.set j _).get? i).map _ = _
        rw [List.get?_set_ne _ _ hji]

/-- The same projections are preserved by the whole registration loop. -/
theorem registerClients_proj (r : Reactor α) (ds : List CellID) (cid : Nat) :
    (registerClients r ds cid).input_cells.length = r.input_cells.length ∧
    (registerClients r ds cid).compute_cells.length = r.compute_cells.length ∧
    (∀ j, ((registerClients r ds cid).input_cells.get? j).map (·.value) =
      (r.input_cells.get? j).map (·.value)) ∧
    (∀ i, ((registerClients r ds cid).compute_cells.get? i).map
        (fun c => (c.deps, c.f, c.callbacks, c.next_cbid)) =
      (r.compute_cells.get? i).map (fun c => (c.deps, c.f, c.callbacks, c.next_cbid))) ∧
    (registerClients r ds cid).prev_vals = r.prev_vals := by
  induction ds generalizing r with
  | nil => exact ⟨rfl, rfl, fun _ => rfl, fun _ => rfl, rfl⟩
  | cons d ds ih =>
    have hstep := registerOne_proj r cid d
    have hrest := ih (registerOne r cid d)
    rw [show registerClients r (d :: ds) cid =
      registerClients (registerOne r cid d) ds cid from rfl]
    exact ⟨hrest.1.trans hstep.1, hrest.2.1.trans hstep.2.1,
      fun j => (hrest.2.2.1 j).trans (hstep.2.2.1 j),
      fun i => (hrest.2.2.2.1 i).trans (hstep.2.2.2.1 i),
      hrest.2.2.2.2.trans hstep.2.2.2.2⟩

/-- `registerOne` only ever adds to clients sets. -/
theorem registerOne_clients_mono (r : Reactor α) (cid : Nat) (d : CellID) :
    (∀ a x, x ∈ r.clientsListOf a → x ∈ (registerOne r cid d).clientsListOf a) ∧
    (∀ k x, x ∈ r.inputClientsOf k → x ∈ (registerOne r cid d).inputClientsOf k) := by
  cases d with
  | Input j =>
    cases hic : r.input_cells.get? j with
    | none =>
      have hre : registerOne r cid (CellID.Input j) = r := by
        simp only [registerOne, hic]
      rw [hre]
      exact ⟨fun _ _ h => h, fun _ _ h => h⟩
    | some ic =>
      have hre : registerOne r cid (CellID.Input j) = { r with input_cells := r.input_cells.set j ({ ic with clients := addClient ic.clients cid }) } := by
        simp only [registerOne, hic]
      rw [hre]
      refine ⟨fun _ _ h => h, ?_⟩
      intro k x hx
      unfold inputClientsOf at hx ⊢
      by_cases hjk : j = k
      · subst hjk
        show x ∈ (((r.input_cells.set j _).get? j).map _).getD []
        rw [List.get?_set_eq_of_lt _ (List.get?_eq_some.1 hic).1]
        rw [hic] at hx
        simp only [Option.map_some', Option.getD_some] at hx ⊢
        unfold addClient
        split
        · exact hx
        · exact List.mem_append_left _ hx
      · show x ∈ (((r.input_cells.set j _).get? k).map _).getD []
        rw [List.get?_set_ne _ _ hjk]
        exact hx
  | Compute j =>
    cases hcc : r.compute_cells.get? j with
    | none =>
      have hre : registerOne r cid (CellID.Compute j) = r := by
        simp only [registerOne, hcc]
      rw [hre]
      exact ⟨fun _ _ h => h, fun _ _ h => h⟩
    | some c =>
      have hre : registerOne r cid (CellID.Compute j) = { r with compute_cells := r.compute_cells.set j ({ c with clients := addClient c.clients cid }) } := by
        simp only [registerOne, hcc]
      rw [hre]
      refine ⟨?_, fun _ _ h => h⟩
      intro a x hx
      unfold clientsListOf at hx ⊢
      by_cases hja : j = a
      · subst hja
        show x ∈ (((r.compute_cells.set j _).get? j).map _).getD []
        rw [List.get?_set_eq_of_lt _ (List.get?_eq_some.1 hcc).1]
        rw [hcc] at hx
        simp only [Option.map_some', Option.getD_some] at hx ⊢
        unfold addClient
        split
        · exact hx
        · exact List.mem_append_left _ hx
      · show x ∈ (((r.compute_cells.set j _).get? a).map _).getD []
        rw [List.get?_set_ne _ _ hja]
        exact hx

theorem registerClients_clients_mono (r : Reactor α) (ds : List CellID) (cid : Nat) :
    (∀ a x, x ∈ r.clientsListOf a → x ∈ (registerClients r ds cid).clientsListOf a) ∧
    (∀ k x, x ∈ r.inputClientsOf k → x ∈ (registerClients r ds cid).inputClientsOf k) := by
  induction ds generalizing r with
  | nil => exact ⟨fun _ _ h => h, fun _ _ h => h⟩
  | cons d ds ih =>
    have hstep := registerOne_clients_mono r cid d
    have hrest := ih (registerOne r cid d)
    exact ⟨fun a x hx => hrest.1 a x (hstep.1 a x hx),
      fun k x hx => hrest.2 k x (hstep.2 k x hx)⟩

/-- `registerOne` on an existing dependency registers `cid` with it. -/
theorem registerOne_registers (r : Reactor α) (cid : Nat) {d : CellID}
    (hd : r.cellExists d) : (registerOne r cid d).clientRegistered cid d := by
  cases d with
  | Input j =>
    obtain ⟨ic, hic⟩ : ∃ ic, r.input_cells.get? j = some ic := ⟨_, List.get?_eq_get hd⟩
    have hre : registerOne r cid (CellID.Input j) = { r with input_cells := r.input_cells.set j ({ ic with clients := addClient ic.clients cid }) } := by
      simp only [registerOne, hic]
    show cid ∈ (registerOne r cid (CellID.Input j)).inputClientsOf j
    rw [hre]
    unfold inputClientsOf
    show cid ∈ (((r.input_cells.set j _).get? j).map _).getD []
    rw [List.get?_set_eq_of_lt _ (List.get?_eq_some.1 hic).1]
    simp only [Option.map_some', Option.getD_some]
    unfold addClient
    split
    · assumption
    · exact List.mem_append_right _ (List.mem_singleton_self _)
  | Compute j =>
    obtain ⟨c, hcc⟩ : ∃ c, r.compute_cells.get? j = some c := ⟨_, List.get?_eq_get hd⟩
    have hre : registerOne r cid (CellID.Compute j) = { r with compute_cells := r.compute_cells.set j ({ c with clients := addClient c.clients cid }) } := by
      simp only [registerOne, hcc]
    show cid ∈ (registerOne r cid (CellID.Compute j)).clientsListOf j
    rw [hre]
    unfold clientsListOf
    show cid ∈ (((r.compute_cells.set j _).get? j).map _).getD []
    rw [List.get?_set_eq_of_lt _ (List.get?_eq_some.1 hcc).1]
    simp only [Option.map_some', Option.getD_some]
    unfold addClient
    split
    · assumption
    · exact List.mem_append_right _ (List.mem_singleton_self _)

/-- After the registration loop, the new cell is a registered client of every
(existing) dependency in the list. -/
theorem registerClients_registers (r : Reactor α) (ds : List CellID) (cid : Nat)
    (hex : ∀ d ∈ ds, r.cellExists d) :
    ∀ d ∈ ds, (registerClients r ds cid).clientRegistered cid d := by
  induction ds generalizing r with
  | nil => intro d hd; simp at hd
  | cons d0 ds ih =>
    intro d hd
    have hproj := registerOne_proj r cid d0
    rcases List.mem_cons.1 hd with hd | hd
    · subst hd
      have hreg := registerOne_registers r cid (hex d (List.mem_cons_self _ _))
      have hmono := registerClients_clients_mono (registerOne r cid d) ds cid
      cases d with
      | Input j => exact hmono.2 j cid hreg
      | Compute j => exact hmono.1 j cid hreg
    · refine ih (registerOne r cid d0) ?_ d hd
      intro d' hd'
      have hex' := hex d' (List.mem_cons_of_mem _ hd')
      cases d' with
      | Input j =>
        show j < (registerOne r cid d0).input_cells.length
        rw [hproj.1]
        exact hex'
      | Compute j =>
        show j < (registerOne r cid d0).compute_cells.length
        rw [hproj.2.1]
        exact hex'

theorem WF.get?C {r : Reactor α} (h : r.WF) {i : Nat} {cell : ComputeCell α}
    (hc : r.compute_cells.get? i = some cell) :
    (∀ d ∈ cell.deps, r.depOK i d) ∧
    (∀ j ∈ cell.clients, j < r.compute_cells.length) ∧
    (∀ cb ∈ cell.callbacks, cb < cell.next_cbid) ∧
    cell.callbacks.Nodup ∧
    (∀ d ∈ cell.deps, r.clientRegistered i d) := by
  obtain ⟨hlt, hget⟩ := List.get?_eq_some.1 hc
  have := h.2.1 i hlt
  rw [hget] at this
  exact this

theorem WF.get?I {r : Reactor α} (h : r.WF) {k : Nat} {ic : InputCell α}
    (hic : r.input_cells.get? k = some ic) :
    ∀ c ∈ ic.clients, c < r.compute_cells.length := by
  obtain ⟨hlt, hget⟩ := List.get?_eq_some.1 hic
  have := h.2.2 k hlt
  rw [hget] at this
  exact this

/-- Build `WF` from `get?`-style facts. -/
theorem WF.mk' {r : Reactor α}
    (h1 : r.prev_vals.length = r.compute_cells.length)
    (h2 : ∀ i cell, r.compute_cells.get? i = some cell →
      (∀ d ∈ cell.deps, r.depOK i d) ∧
      (∀ j ∈ cell.clients, j < r.compute_cells.length) ∧
      (∀ cb ∈ cell.callbacks, cb < cell.next_cbid) ∧
      cell.callbacks.Nodup ∧
      (∀ d ∈ cell.deps, r.clientRegistered i d))
    (h3 : ∀ k ic, r.input_cells.get? k = some ic →
      ∀ c ∈ ic.clients, c < r.compute_cells.length) : r.WF := by
  refine ⟨h1, ?_, ?_⟩
  · intro i hi
    exact h2 i _ (List.get?_eq_get hi)
  · intro k hk
    exact h3 k _ (List.get?_eq_get hk)

/-- Replacing the cache vector (with one of the right length) preserves `WF`. -/
theorem WF_prev_set {r : Reactor α} (hWF : r.WF) {pv : List (Option α)}
    (hlen : pv.length = r.compute_cells.length) :
    Reactor.WF { r with prev_vals := pv } :=
  ⟨hlen, hWF.2.1, hWF.2.2⟩

/-- Overwriting an input cell's value (keeping its clients) preserves `WF`. -/
theorem WF_input_set {r : Reactor α} (hWF : r.WF) {idx : Nat} {ic : InputCell α}
    (hic : r.input_cells.get? idx = some ic) (v : α) :
    Reactor.WF { r with input_cells := r.input_cells.set idx ({ ic with value := v }) } := by
  have hidx : idx < r.input_cells.length := (List.get?_eq_some.1 hic).1
  refine WF.mk' hWF.pvlen ?_ ?_
  · intro i cell hc
    obtain ⟨hd, hcl, hcb, hnd, hreg⟩ := hWF.get?C hc
    refine ⟨?_, hcl, hcb, hnd, ?_⟩
    · intro d hdd
      have := hd d hdd
      cases d with
      | Input j =>
        show j < (r.input_cells.set idx _).length
        rw [List.length_set]
        exact this
      | Compute j => exact this
    · intro d hdd
      have := hreg d hdd
      cases d with
      | Input j =>
        have hm : i ∈ r.inputClientsOf j := this
        show i ∈ Reactor.inputClientsOf { r with input_cells := r.input_cells.set idx ({ ic with value := v }) } j
        unfold inputClientsOf at hm ⊢
        by_cases hji : idx = j
        · subst hji
          show i ∈ (((r.input_cells.set idx _).get? idx).map _).getD []
          rw [List.get?_set_eq_of_lt _ hidx]
          rw [hic] at hm
          exact hm
        · show i ∈ (((r.input_cells.set idx _).get? j).map _).getD []
          rw [List.get?_set_ne _ _ hji]
          exact hm
      | Compute j => exact this
  · intro k ic' hic'
    by_cases hk : idx = k
    · subst hk
      rw [show (Reactor.mk (r.input_cells.set idx ({ ic with value := v })) r.compute_cells r.prev_vals).input_cells = r.input_cells.set idx ({ ic with value := v }) from rfl,
        List.get?_set_eq_of_lt _ hidx] at hic'
      cases hic'
      intro c hc
      exact hWF.get?I hic c hc
    · rw [show (Reactor.mk (r.input_cells.set idx ({ ic with value := v })) r.compute_cells r.prev_vals).input_cells = r.input_cells.set idx ({ ic with value := v }) from rfl,
        List.get?_set_ne _ _ hk] at hic'
      exact hWF.get?I hic'

/-- `depsVals` congruence with hypotheses restricted to the dependencies that
actually occur in the list. -/
theorem depsVals_congr2 {ics1 ics2 : List (InputCell α)} {dv1 dv2 : Nat → Option α}
    (ds : List CellID)
    (h : ∀ d ∈ ds,
      (∀ j, d = CellID.Input j →
        (ics1.get? j).map (·.value) = (ics2.get? j).map (·.value)) ∧
      (∀ j, d = CellID.Compute j → dv1 j = dv2 j)) :
    depsVals ics1 dv1 ds = depsVals ics2 dv2 ds := by
  induction ds with
  | nil => rfl
  | cons d ds ih =>
    have ihds := ih fun d hd => h d (List.mem_cons_of_mem _ hd)
    cases d with
    | Input j =>
      have hj := (h _ (List.mem_cons_self _ _)).1 j rfl
      simp only [depsVals]
      cases hc1 : ics1.get? j with
      | none => cases hc2 : ics2.get? j with
        | none => rfl
        | some ic2 => rw [hc1, hc2] at hj; simp at hj
      | some ic1 => cases hc2 : ics2.get? j with
        | none => rw [hc1, hc2] at hj; simp at hj
        | some ic2 =>
          rw [hc1, hc2] at hj
          simp only [Option.map_some', Option.some.injEq] at hj
          simp [ihds, hj]
    | Compute j =>
      have hj := (h _ (List.mem_cons_self _ _)).2 j rfl
      simp only [depsVals, hj, ihds]

/-- Locality of the denotation: writing an input cell's value does not change
the denotation of any compute cell outside the transitive client closure of
that input. -/
theorem denot_input_set {r : Reactor α} (hWF : r.WF) {idx : Nat} {ic : InputCell α}
    (hic : r.input_cells.get? idx = some ic) (v : α) :
    ∀ c, ¬ r.InClosure idx c →
      Reactor.denot { r with input_cells := r.input_cells.set idx ({ ic with value := v }) } c
        = r.denot c := by
  have hidx : idx < r.input_cells.length := (List.get?_eq_some.1 hic).1
  have hWF1 := WF_input_set hWF hic v
  have hicl : r.inputClientsOf idx = ic.clients := by
    simp only [inputClientsOf, hic, Option.map_some', Option.getD_some]
  intro c
  induction c using Nat.strong_induction_on with
  | _ c ihc =>
    intro hcl
    cases hcc : r.compute_cells.get? c with
    | none =>
      rw [denot_of_get?_none hcc, denot_of_get?_none (r := { r with input_cells := r.input_cells.set idx ({ ic with value := v }) }) hcc]
    | some cell =>
      rw [denot_eq hWF.wfdeps hcc, denot_eq (r := { r with input_cells := r.input_cells.set idx ({ ic with value := v }) }) hWF1.wfdeps hcc]
      have hreg := (hWF.get?C hcc).2.2.2.2
      have hdeps := (hWF.get?C hcc).1
      refine congrArg _ (depsVals_congr2 cell.deps ?_)
      intro d hd
      constructor
      · rintro j rfl
        have hj : c ∈ r.inputClientsOf j := hreg _ hd
        by_cases hji : idx = j
        · subst hji
          rw [hicl] at hj
          exact absurd ⟨c, hicl ▸ hj, Relation.ReflTransGen.refl⟩ hcl
        · show ((r.input_cells.set idx _).get? j).map _ = _
          rw [List.get?_set_ne _ _ hji]
      · rintro j rfl
        have hjc : j < c := hdeps _ hd
        refine ihc j hjc ?_
        intro hjcl
        refine hcl ?_
        obtain ⟨d0, hd0, hrtg⟩ := hjcl
        exact ⟨d0, hd0, hrtg.tail (hreg _ hd)⟩

/-- `closLoop` depends on the reactor only through the client sets. -/
theorem closLoop_congr {r1 r2 : Reactor α}
    (h : ∀ j, clientsOf r1 j = clientsOf r2 j) :
    ∀ fuel c1 c2, closLoop r1 fuel c1 c2 = closLoop r2 fuel c1 c2 := by
  have hb : ∀ s : Finset Nat, s.biUnion (clientsOf r1) = s.biUnion (clientsOf r2) :=
    fun s => Finset.biUnion_congr rfl (fun j _ => h j)
  have hstep : ∀ c1 c2, closStep r1 c1 c2 = closStep r2 c1 c2 := by
    intro c1 c2
    unfold closStep
    simp only [hb]
  intro fuel
  induction fuel with
  | zero => intro c1 c2; rfl
  | succ fuel ih =>
    intro c1 c2
    simp only [closLoop, hstep c1 c2, ih]


/-- Members of the client closure are existing compute cells. -/
theorem InClosure_lt {r : Reactor α} (hWF : r.WF) {k c : Nat}
    (h : r.InClosure k c) : c < r.compute_cells.length := by
  obtain ⟨d, hd, hrtg⟩ := h
  induction hrtg with
  | refl =>
    unfold inputClientsOf at hd
    cases hk : r.input_cells.get? k with
    | none => rw [hk] at hd; simp at hd
    | some ick =>
      rw [hk] at hd
      simp only [Option.map_some', Option.getD_some] at hd
      exact hWF.get?I hk d hd
  | tail hab hbc ihd =>
    rename_i b c'
    unfold clientRel clientsListOf at hbc
    cases hb : r.compute_cells.get? b with
    | none => rw [hb] at hbc; simp at hbc
    | some cellb =>
      rw [hb] at hbc
      simp only [Option.map_some', Option.getD_some] at hbc
      exact (hWF.get?C hb).2.1 c' hbc

/-- `set_value` on a nonexistent input handle: `false`, no state change, no
events. -/
theorem set_value_invalid {r : Reactor α} {idx : Nat}
    (h : r.input_cells.get? idx = none) (v : α) :
    r.set_value idx v = some (r, false, []) := by
  simp only [set_value, h]

/-- `set_value` writing the current value: `true`, no state change, no events
(the explicit short-circuit). -/
theorem set_value_noop {r : Reactor α} {idx : Nat} {ic : InputCell α}
    (hic : r.input_cells.get? idx = some ic) {v : α} (hv : ic.value = v) :
    r.set_value idx v = some (r, true, []) := by
  simp only [set_value, hic, hv, if_pos]

/-- The master specification of a propagating `set_value` call: it succeeds
with `true`, stores the new value, computes exactly the transitive client
closure of the written input as the affected set, evaluates every member, and
its trace forms one pass segment from the old caches to the new ones, with the
caches of all affected cells settled at the new denotations. -/
theorem set_value_spec {r : Reactor α} (hWF : r.WF) {idx : Nat} {ic : InputCell α}
    (hic : r.input_cells.get? idx = some ic) {v : α} (hne : ¬ ic.value = v) :
    ∃ pv' tr S,
      r.set_value idx v =
        some ({ r with input_cells := r.input_cells.set idx ({ ic with value := v }),
                       prev_vals := pv' }, true, tr) ∧
      pv'.length = r.compute_cells.length ∧
      r.affectedSet idx = some S ∧
      (∀ c, c ∈ S ↔ r.InClosure idx c) ∧
      Reactor.PassOK { r with input_cells := r.input_cells.set idx ({ ic with value := v }) }
        r.prev_vals pv' tr ∧
      (∀ c ∈ S,
        pvAt pv' c =
          Reactor.denot { r with input_cells := r.input_cells.set idx ({ ic with value := v }) } c ∧
        Event.eval c ∈ tr) := by
  have hidx : idx < r.input_cells.length := (List.get?_eq_some.1 hic).1
  have hWF1 : Reactor.WF { r with input_cells := r.input_cells.set idx ({ ic with value := v }) } :=
    WF_input_set hWF hic v
  have hic1 : ({ r with input_cells := r.input_cells.set idx ({ ic with value := v }) } : Reactor α).input_cells.get? idx = some ({ ic with value := v }) := by
    show (r.input_cells.set idx _).get? idx = _
    rw [List.get?_set_eq_of_lt _ hidx]
  obtain ⟨S, hS, hiff1⟩ := closLoop_closure hWF1 hic1
  have hicl : r.inputClientsOf idx = ic.clients := by
    simp only [inputClientsOf, hic, Option.map_some', Option.getD_some]
  have hicl1 : Reactor.inputClientsOf { r with input_cells := r.input_cells.set idx ({ ic with value := v }) } idx = ic.clients := by
    unfold inputClientsOf
    show (((r.input_cells.set idx _).get? idx).map _).getD [] = _
    rw [List.get?_set_eq_of_lt _ hidx]
    rfl
  have hiff : ∀ c, c ∈ S ↔ r.InClosure idx c := by
    intro c
    rw [hiff1 c]
    constructor
    · rintro ⟨d, hd, hrtg⟩
      rw [hicl1] at hd
      rw [← hicl] at hd
      exact ⟨d, hd, hrtg⟩
    · rintro ⟨d, hd, hrtg⟩
      rw [hicl] at hd
      rw [← hicl1] at hd
      exact ⟨d, hd, hrtg⟩
  have hSlt : ∀ c ∈ S, c < r.compute_cells.length :=
    fun c hc => InClosure_lt hWF ((hiff c).1 hc)
  have hcsdef : ∀ c, c ∈ (List.range r.compute_cells.length).filter (· ∈ S) ↔ c ∈ S := by
    intro c
    rw [List.mem_filter, List.mem_range]
    constructor
    · intro h
      exact of_decide_eq_true h.2
    · intro h
      exact ⟨hSlt c h, decide_eq_true h⟩
  obtain ⟨pv', tr, heqrun, hlen', hpass, hsettled, hcov⟩ :=
    runCalls_spec hWF1.wfdeps ((List.range r.compute_cells.length).filter (· ∈ S))
      r.prev_vals (fun c hc => hSlt c ((hcsdef c).1 hc)) hWF.pvlen
  refine ⟨pv', tr, S, ?_, hlen', ?_, hiff, hpass, ?_⟩
  · show r.set_value idx v = _
    simp only [set_value, hic]
    rw [if_neg hne]
    dsimp only
    dsimp only at hS heqrun
    rw [hS]
    dsimp only
    rw [if_pos (fun c hc => hSlt c hc)]
    rw [heqrun]
  · show Reactor.closLoop r (r.compute_cells.length + 1) (r.inputClientsOf idx).toFinset ∅ = some S
    rw [hicl]
    have hclients : ∀ j, Reactor.clientsOf r j =
        Reactor.clientsOf { r with input_cells := r.input_cells.set idx ({ ic with value := v }) } j :=
      fun j => rfl
    rw [closLoop_congr hclients]
    dsimp only at hS
    exact hS
  · intro c hc
    exact ⟨(hsettled c ((hcsdef c).2 hc)), hcov c ((hcsdef c).2 hc)⟩

/-- `Reactor::value` on an existing compute cell: re-evaluates and returns the
denotation, settling the caches of all cells the read visits. -/
theorem value_compute {r : Reactor α} (hWF : r.WF) {i : Nat}
    (hi : i < r.compute_cells.length) :
    ∃ pv' v tr, r.value (.Compute i) = some ({ r with prev_vals := pv' }, some v, tr) ∧
      r.denot i = some v ∧ pv'.length = r.compute_cells.length ∧
      PassOK r r.prev_vals pv' tr ∧
      (∀ j ∈ evalSetF r.compute_cells r.compute_cells.length i, pvAt pv' j = r.denot j) := by
  obtain ⟨cell, hc⟩ : ∃ cell, r.compute_cells.get? i = some cell :=
    ⟨_, List.get?_eq_get hi⟩
  obtain ⟨pv', v, tr, heq, hden, hlen, hpass, hset, _, _, _⟩ :=
    evalCell_spec hWF.wfdeps r.compute_cells.length i r.prev_vals hi hi hWF.pvlen
  refine ⟨pv', v, tr, ?_, hden, hlen.trans hWF.pvlen, hpass, hset⟩
  simp only [value, hc, heq]

/-- `Reactor::value` never panics on a well-formed reactor, and an invalid
handle reads as `none` with no state change and no events. -/
theorem value_total {r : Reactor α} (hWF : r.WF) (h : CellID) :
    (r.value h).isSome ∧
    (¬ r.cellExists h → r.value h = some (r, none, [])) := by
  cases h with
  | Input j =>
    constructor
    · simp [value]
    · intro hne
      have hnone : r.input_cells.get? j = none :=
        List.get?_eq_none.2 (Nat.le_of_not_lt (fun hlt => hne hlt))
      simp only [value, hnone]
      rfl
  | Compute i =>
    by_cases hi : i < r.compute_cells.length
    · obtain ⟨pv', v, tr, heq, _, _, _, _⟩ := value_compute hWF hi
      rw [heq]
      exact ⟨rfl, fun hne => absurd hi hne⟩
    · have hnone : r.compute_cells.get? i = none :=
        List.get?_eq_none.2 (Nat.le_of_not_lt hi)
      constructor
      · simp only [value, hnone]
        rfl
      · intro _
        simp only [value, hnone]

/-- `set_value` always returns an ordinary result on a well-formed reactor; the
flag is `true` exactly for in-range handles; the compute-cell structure is
untouched and well-formedness is preserved. -/
theorem set_value_total {r : Reactor α} (hWF : r.WF) (idx : Nat) (v : α) :
    ∃ r' b tr, r.set_value idx v = some (r', b, tr) ∧ r'.WF ∧
      (b = true ↔ idx < r.input_cells.length) ∧
      r'.compute_cells = r.compute_cells := by
  cases hic : r.input_cells.get? idx with
  | none =>
    have hge : ¬ idx < r.input_cells.length := by
      intro hlt
      rw [List.get?_eq_get hlt] at hic
      exact Option.noConfusion hic
    exact ⟨r, false, [], set_value_invalid hic v, hWF, by simp [hge], rfl⟩
  | some ic =>
    have hlt : idx < r.input_cells.length := (List.get?_eq_some.1 hic).1
    by_cases hv : ic.value = v
    · exact ⟨r, true, [], set_value_noop hic hv, hWF, by simp [hlt], rfl⟩
    · obtain ⟨pv', tr, S, heq, hlen, _, _, _, _⟩ := set_value_spec hWF hic hv
      refine ⟨_, true, tr, heq, ?_, by simp [hlt], rfl⟩
      exact WF_prev_set (WF_input_set hWF hic v) hlen

/-- Every callback invocation recorded by a `set_value` call belongs to a
callback registered (at call time) on the cell it fires on. -/
theorem set_value_fires_registered {r : Reactor α} (hWF : r.WF) {idx : Nat} {v : α}
    {r' : Reactor α} {b : Bool} {tr : List (Event α)}
    (h : r.set_value idx v = some (r', b, tr)) {c cb : Nat} {w : α}
    (he : Event.fire c cb w ∈ tr) : cb ∈ r.callbacksOf c := by
  cases hic : r.input_cells.get? idx with
  | none =>
    rw [set_value_invalid hic v] at h
    have htr : ([] : List (Event α)) = tr :=
      congrArg (fun x => x.2.2) (Option.some.inj h)
    rw [← htr] at he
    simp at he
  | some ic =>
    by_cases hv : ic.value = v
    · rw [set_value_noop hic hv] at h
      have htr : ([] : List (Event α)) = tr :=
        congrArg (fun x => x.2.2) (Option.some.inj h)
      rw [← htr] at he
      simp at he
    · obtain ⟨pv', tr', S, heq, _, _, _, hpass, _⟩ := set_value_spec hWF hic hv
      rw [heq] at h
      have htr : tr' = tr := congrArg (fun x => x.2.2) (Option.some.inj h)
      rw [← htr] at he
      clear htr h
      have hfω : Event.fire c cb w ∈ firesOn tr' c :=
        mem_firesOn.2 ⟨he, cb, w, rfl⟩
      rcases hpass c with ⟨-, hf⟩ | ⟨w', -, -, -, hf⟩
      · rw [hf] at hfω
        simp at hfω
      · rw [hf] at hfω
        obtain ⟨cb', hcb', hfire⟩ := List.mem_map.1 hfω
        have : cb' = cb := (Event.fire.injEq .. ▸ hfire).2.1
        subst this
        exact hcb'

/-- Reading each dependency through `Reactor::value` yields exactly the values
the denotation assigns to them. -/
theorem depsVals_value {r : Reactor α} (hWF : r.WF) :
    ∀ (ds : List CellID) (vals : List α),
      depsVals r.input_cells r.denot ds = some vals →
      List.Forall₂ (fun d w => ∃ r2 tr2, r.value d = some (r2, some w, tr2)) ds vals := by
  intro ds
  induction ds with
  | nil =>
    intro vals h
    cases h
    exact List.Forall₂.nil
  | cons d ds ih =>
    intro vals h
    cases d with
    | Input j =>
      simp only [depsVals] at h
      cases hic : r.input_cells.get? j with
      | none => rw [hic] at h; exact Option.noConfusion h
      | some ic =>
        rw [hic] at h
        cases hds : depsVals r.input_cells r.denot ds with
        | none => rw [hds] at h; exact Option.noConfusion h
        | some vs =>
          rw [hds] at h
          simp only [Option.map_some', Option.some.injEq] at h
          subst h
          refine List.Forall₂.cons ⟨r, [], ?_⟩ (ih vs hds)
          simp only [value, hic]
          rfl
    | Compute j =>
      simp only [depsVals] at h
      cases hdj : r.denot j with
      | none => rw [hdj] at h; exact Option.noConfusion h
      | some w =>
        rw [hdj] at h
        cases hds : depsVals r.input_cells r.denot ds with
        | none => rw [hds] at h; exact Option.noConfusion h
        | some vs =>
          rw [hds] at h
          simp only [Option.map_some', Option.some.injEq] at h
          subst h
          have hjN : j < r.compute_cells.length := denot_lt_of_some hdj
          obtain ⟨pv', v, tr, heq, hden, _, _, _⟩ := value_compute hWF hjN
          have hvw : v = w := Option.some.inj (hden.symm.trans hdj)
          subst hvw
          exact List.Forall₂.cons ⟨_, tr, heq⟩ (ih vs hds)

/-- Functional correctness of a read: `value` on a compute cell returns its
function applied to the values `value` returns for its dependencies, in
dependency order. -/
theorem value_consistent {r : Reactor α} (hWF : r.WF) {i : Nat} {cell : ComputeCell α}
    (hc : r.compute_cells.get? i = some cell) :
    ∃ vals,
      List.Forall₂ (fun d w => ∃ r2 tr2, r.value d = some (r2, some w, tr2)) cell.deps vals ∧
      ∃ r3 tr3, r.value (.Compute i) = some (r3, some (cell.f vals), tr3) := by
  have hiN : i < r.compute_cells.length := (List.get?_eq_some.1 hc).1
  obtain ⟨pv', v, tr, heq, hden, _, _, _⟩ := value_compute hWF hiN
  have hdv : (depsVals r.input_cells r.denot cell.deps).map cell.f = some v := by
    rw [← denot_eq hWF.wfdeps hc]
    exact hden
  obtain ⟨vals, hvals, hfv⟩ := Option.map_eq_some'.1 hdv
  refine ⟨vals, depsVals_value hWF cell.deps vals hvals, ?_⟩
  rw [hfv]
  exact ⟨_, tr, heq⟩

theorem WFdeps_registerClients {r : Reactor α} (h : r.WFdeps) (ds : List CellID)
    (cid : Nat) : (registerClients r ds cid).WFdeps := by
  intro k hk d hd
  have hproj := registerClients_proj r ds cid
  have hget1 : (registerClients r ds cid).compute_cells.get? k =
      some ((registerClients r ds cid).compute_cells.get ⟨k, hk⟩) := List.get?_eq_get hk
  have htup := hproj.2.2.2.1 k
  rw [hget1] at htup
  cases hgr : r.compute_cells.get? k with
  | none => rw [hgr] at htup; simp at htup
  | some cellr =>
    rw [hgr] at htup
    simp only [Option.map_some', Option.some.injEq, Prod.mk.injEq] at htup
    rw [htup.1] at hd
    have hok := h.get? hgr d hd
    cases d with
    | Input j =>
      show j < (registerClients r ds cid).input_cells.length
      rw [hproj.1]
      exact hok
    | Compute j => exact hok

theorem find?_first {p : CellID → Bool} {pre : List CellID} {bad : CellID}
    {post : List CellID} (hpre : ∀ d ∈ pre, p d = false) (hbad : p bad = true) :
    (pre ++ bad :: post).find? p = some bad := by
  induction pre with
  | nil =>
    rw [List.nil_append]
    exact List.find?_cons_of_pos _ hbad
  | cons a pre ih =>
    rw [List.cons_append, List.find?_cons_of_neg _ (by simp [hpre a (List.mem_cons_self _ _)])]
    exact ih fun d hd => hpre d (List.mem_cons_of_mem _ hd)

/-- `create_compute` with an invalid dependency: validation finds the first
invalid handle in list order, returns it as the error, and performs no
mutation whatsoever — the reactor comes back unchanged and nothing (in
particular no compute function) is evaluated. -/
theorem create_compute_err {r : Reactor α} {ds : List CellID} (f : List α → α)
    {pre post : List CellID} {bad : CellID} (hsplit : ds = pre ++ bad :: post)
    (hpre : ∀ d ∈ pre, r.cellExists d) (hbad : ¬ r.cellExists bad) :
    r.create_compute ds f = some (r, .error bad, []) := by
  have hfind : ds.find? (fun d => !(decide (r.cellExists d))) = some bad := by
    subst hsplit
    refine find?_first ?_ ?_
    · intro d hd
      simp [hpre d hd]
    · simp [hbad]
  simp only [create_compute, hfind]

/-- `create_compute` with all dependencies valid: allocates the new cell at the
next index, registers it as a client of every dependency, and evaluates its
function exactly once, populating its cache with the result on the current
dependency values. -/
theorem create_compute_ok {r : Reactor α} (hWF : r.WF) {ds : List CellID}
    (f : List α → α) (hex : ∀ d ∈ ds, r.cellExists d) :
    ∃ r' tr vals,
      r.create_compute ds f = some (r', .ok r.compute_cells.length, tr) ∧
      r'.compute_cells.length = r.compute_cells.length + 1 ∧
      r'.compute_cells.get? r.compute_cells.length = some ⟨f, ds, [], 0, []⟩ ∧
      (∀ d ∈ ds, r'.clientRegistered r.compute_cells.length d) ∧
      tr.count (Event.eval r.compute_cells.length) = 1 ∧
      depsVals r.input_cells r.denot ds = some vals ∧
      pvAt r'.prev_vals r.compute_cells.length = some (f vals) := by
  have hfind : ds.find? (fun d => !(decide (r.cellExists d))) = none := by
    rw [List.find?_eq_none]
    intro d hd
    simp [hex d hd]
  have hproj := registerClients_proj r ds r.compute_cells.length
  have hdeps1 := WFdeps_registerClients hWF.wfdeps ds r.compute_cells.length
  have hN1 : (registerClients r ds r.compute_cells.length).compute_cells.length =
      r.compute_cells.length := hproj.2.1
  have hds : ∀ d ∈ ds,
      (∀ j, d = CellID.Input j →
        j < (registerClients r ds r.compute_cells.length).input_cells.length) ∧
      (∀ j, d = CellID.Compute j →
        j < (registerClients r ds r.compute_cells.length).compute_cells.length ∧
        j < (registerClients r ds r.compute_cells.length).compute_cells.length) := by
    intro d hd
    constructor
    · rintro j rfl
      rw [hproj.1]
      exact hex _ hd
    · rintro j rfl
      rw [hN1]
      exact ⟨hex _ hd, hex _ hd⟩
  have hpvlen : (registerClients r ds r.compute_cells.length).prev_vals.length =
      (registerClients r ds r.compute_cells.length).compute_cells.length := by
    rw [hproj.2.2.2.2, hN1]
    exact hWF.pvlen
  obtain ⟨pv1, vals1, tr, heqD, hdv1, hlen1, _, _, _, hevs⟩ :=
    depsSpec_of_cellSpec (evalCell_spec hdeps1 _) hds
      (registerClients r ds r.compute_cells.length).prev_vals hpvlen
  have hpair : ∀ i,
      ((registerClients r ds r.compute_cells.length).compute_cells.get? i).map
        (fun c => (c.deps, c.f)) = (r.compute_cells.get? i).map (fun c => (c.deps, c.f)) := by
    intro i
    have htup := hproj.2.2.2.1 i
    cases h1 : (registerClients r ds r.compute_cells.length).compute_cells.get? i with
    | none =>
      cases h2 : r.compute_cells.get? i with
      | none => rfl
      | some c2 => rw [h1, h2] at htup; simp at htup
    | some c1 =>
      cases h2 : r.compute_cells.get? i with
      | none => rw [h1, h2] at htup; simp at htup
      | some c2 =>
        rw [h1, h2] at htup
        simp only [Option.map_some', Option.some.injEq, Prod.mk.injEq] at htup
        simp only [Option.map_some', Option.some.injEq, Prod.mk.injEq]
        exact ⟨htup.1, htup.2.1⟩
  have hdenot : ∀ j, Reactor.denot (registerClients r ds r.compute_cells.length) j =
      r.denot j :=
    fun j => denotF_congr hproj.2.2.1 hpair (j + 1) j
  have hdv : depsVals r.input_cells r.denot ds = some vals1 := by
    rw [← hdv1]
    exact (depsVals_congr hproj.2.2.1 ds (fun j _ => hdenot j)).symm
  refine ⟨(⟨(registerClients r ds r.compute_cells.length).input_cells,
    (registerClients r ds r.compute_cells.length).compute_cells ++ [(⟨f, ds, [], 0, []⟩ : ComputeCell α)],
    pv1 ++ [some (f vals1)]⟩ : Reactor α),
    tr ++ [Event.eval r.compute_cells.length], vals1, ?_, ?_, ?_, ?_, ?_, hdv, ?_⟩
  · simp only [create_compute, hfind]
    rw [heqD]
  · show ((registerClients r ds r.compute_cells.length).compute_cells ++ _).length = _
    rw [List.length_append, hN1]
    rfl
  · show ((registerClients r ds r.compute_cells.length).compute_cells ++
      [(⟨f, ds, [], 0, []⟩ : ComputeCell α)]).get? r.compute_cells.length = _
    rw [List.get?_append_right (by rw [hN1])]
    rw [hN1]
    simp
  · intro d hd
    have hreg := registerClients_registers r ds r.compute_cells.length hex d hd
    cases d with
    | Input j => exact hreg
    | Compute j =>
      show r.compute_cells.length ∈ Reactor.clientsListOf _ j
      have hjN : j < (registerClients r ds r.compute_cells.length).compute_cells.length := by
        rw [hN1]
        exact hex _ hd
      unfold clientsListOf
      show r.compute_cells.length ∈ ((((registerClients r ds r.compute_cells.length).compute_cells ++ [(⟨f, ds, [], 0, []⟩ : ComputeCell α)]).get? j).map _).getD []
      rw [List.get?_append hjN]
      exact hreg
  · rw [List.count_append]
    have h0 : tr.count (Event.eval r.compute_cells.length) = 0 := by
      rw [List.count_eq_zero]
      intro hmem
      have := hevs _ hmem
      obtain ⟨j', hj', hmm⟩ := mem_evalSetD.1 this
      have h1 : r.compute_cells.length ≤ j' := evalSetF_le hdeps1 _ j' _ hmm
      have h2 : j' < r.compute_cells.length := hex _ hj'
      omega
    rw [h0]
    simp
  · show pvAt (pv1 ++ [some (f vals1)]) r.compute_cells.length = _
    have hpl : pv1.length = r.compute_cells.length := by
      rw [hlen1, hproj.2.2.2.2]
      exact hWF.pvlen
    rw [← hpl]
    exact pvAt_append_self _

theorem remove_callback_invalid_cell {r : Reactor α} {cellIdx cb : Nat}
    (h : r.compute_cells.length ≤ cellIdx) :
    r.remove_callback cellIdx cb = (r, .error .NonexistentCell) := by
  simp only [remove_callback, List.get?_eq_none.2 h]

theorem remove_callback_missing {r : Reactor α} {cellIdx cb : Nat} {c : ComputeCell α}
    (hc : r.compute_cells.get? cellIdx = some c) (hnm : cb ∉ c.callbacks) :
    r.remove_callback cellIdx cb = (r, .error .NonexistentCallback) := by
  simp only [remove_callback, hc, if_neg hnm]

theorem remove_callback_found {r : Reactor α} {cellIdx cb : Nat} {c : ComputeCell α}
    (hc : r.compute_cells.get? cellIdx = some c) (hm : cb ∈ c.callbacks) :
    r.remove_callback cellIdx cb =
      ({ r with compute_cells := r.compute_cells.set cellIdx ({ c with callbacks := c.callbacks.erase cb }) }, .ok ()) := by
  simp only [remove_callback, hc, if_pos hm]

theorem clientsListOf_after_remove {r : Reactor α} {cellIdx cb : Nat} {c : ComputeCell α}
    (hc : r.compute_cells.get? cellIdx = some c) (j : Nat) :
    Reactor.clientsListOf { r with compute_cells := r.compute_cells.set cellIdx ({ c with callbacks := c.callbacks.erase cb }) } j = r.clientsListOf j := by
  unfold clientsListOf
  by_cases hj : cellIdx = j
  · subst hj
    show (((r.compute_cells.set cellIdx _).get? cellIdx).map _).getD [] = _
    rw [List.get?_set_eq_of_lt _ (List.get?_eq_some.1 hc).1, hc]
    rfl
  · show (((r.compute_cells.set cellIdx _).get? j).map _).getD [] = _
    rw [List.get?_set_ne _ _ hj]

theorem callbacksOf_after_remove {r : Reactor α} {cellIdx cb : Nat} {c : ComputeCell α}
    (hc : r.compute_cells.get? cellIdx = some c) :
    Reactor.callbacksOf { r with compute_cells := r.compute_cells.set cellIdx ({ c with callbacks := c.callbacks.erase cb }) } cellIdx = c.callbacks.erase cb := by
  unfold callbacksOf
  show (((r.compute_cells.set cellIdx _).get? cellIdx).map _).getD [] = _
  rw [List.get?_set_eq_of_lt _ (List.get?_eq_some.1 hc).1]
  rfl

theorem WF_remove {r : Reactor α} (hWF : r.WF) {cellIdx cb : Nat} {c : ComputeCell α}
    (hc : r.compute_cells.get? cellIdx = some c) :
    Reactor.WF { r with compute_cells := r.compute_cells.set cellIdx ({ c with callbacks := c.callbacks.erase cb }) } := by
  have hlt : cellIdx < r.compute_cells.length := (List.get?_eq_some.1 hc).1
  have hlen : (r.compute_cells.set cellIdx ({ c with callbacks := c.callbacks.erase cb })).length = r.compute_cells.length := List.length_set _ _ _
  refine WF.mk' ?_ ?_ ?_
  · show r.prev_vals.length = (r.compute_cells.set cellIdx _).length
    rw [hlen]
    exact hWF.pvlen
  · intro i cell hcell
    have hcell' : (r.compute_cells.set cellIdx ({ c with callbacks := c.callbacks.erase cb })).get? i = some cell := hcell
    by_cases hj : cellIdx = i
    · subst hj
      rw [List.get?_set_eq_of_lt _ hlt] at hcell'
      cases hcell'
      obtain ⟨hd, hcl, hcb, hnd, hreg⟩ := hWF.get?C hc
      refine ⟨hd, ?_, ?_, hnd.erase cb, ?_⟩
      · intro j hj
        show j < (r.compute_cells.set cellIdx _).length
        rw [hlen]
        exact hcl j hj
      · intro x hx
        exact hcb x (List.mem_of_mem_erase hx)
      · intro d hdd
        have := hreg d hdd
        cases d with
        | Input j => exact this
        | Compute j =>
          show cellIdx ∈ Reactor.clientsListOf { r with compute_cells := r.compute_cells.set cellIdx ({ c with callbacks := c.callbacks.erase cb }) } j
          rw [clientsListOf_after_remove hc]
          exact this
    · rw [List.get?_set_ne _ _ hj] at hcell'
      obtain ⟨hd, hcl, hcb, hnd, hreg⟩ := hWF.get?C hcell'
      refine ⟨hd, ?_, hcb, hnd, ?_⟩
      · intro j hj
        show j < (r.compute_cells.set cellIdx _).length
        rw [hlen]
        exact hcl j hj
      · intro d hdd
        have := hreg d hdd
        cases d with
        | Input j => exact this
        | Compute j =>
          show i ∈ Reactor.clientsListOf { r with compute_cells := r.compute_cells.set cellIdx ({ c with callbacks := c.callbacks.erase cb }) } j
          rw [clientsListOf_after_remove hc]
          exact this
  · intro k ic hic
    intro x hx
    show x < (r.compute_cells.set cellIdx _).length
    rw [hlen]
    exact hWF.get?I hic x hx

end Reactor



open Reactor

/-- C3: In the diamond graph — input `A = 1` (`Input 0`), compute `B = A + 1`
(`Compute 0`), `C = A + 10` (`Compute 1`), `D = B + C` (`Compute 2`), one
callback (id `0`) registered on `D` — the call `set_value(A, 5)` succeeds, the
callback on `D` fires exactly once during the call (the complete list of fire
events on `D` is the single invocation with value `21`), and `value(D)`
afterwards returns `21`. -/
theorem C3_diamond :
    (diamondReady.set_value 0 5).map (fun x => (x.2.1, Reactor.firesOn x.2.2 2)) =
      some (true, [Event.fire 2 0 21]) ∧
    (diamondReady.set_value 0 5).bind
      (fun x => (x.1.value (.Compute 2)).map (·.2.1)) = some (some 21) :=
  ⟨by decide, by decide⟩

/-- C6: `set_value` never panics on a well-formed reactor and returns `false`
exactly when the input handle is out of range of the input-cell storage; every
in-range write returns `true`, including a write of the current value. -/
theorem C6_set_value_flag {α : Type} [DecidableEq α] (r : Reactor α) (hWF : r.WF)
    (idx : Nat) (v : α) :
    ∃ r' b tr, r.set_value idx v = some (r', b, tr) ∧
      (b = true ↔ idx < r.input_cells.length) := by
  obtain ⟨r', b, tr, heq, _, hiff, _⟩ := set_value_total hWF idx v
  exact ⟨r', b, tr, heq, hiff⟩

theorem C6_witness :
    ∃ r' b tr, diamondReady.set_value 5 (7 : Int) = some (r', b, tr) ∧
      (b = true ↔ 5 < diamondReady.input_cells.length) :=
  C6_set_value_flag diamondReady (by decide) 5 7

/-- C7: writing an input's current value is a no-op: `set_value` returns
`true`, performs no propagation and fires no callback (the trace is empty),
and the whole reactor state — every stored input value and every compute-cell
cache — is returned unchanged. -/
theorem C7_noop_write {α : Type} [DecidableEq α] (r : Reactor α) (idx : Nat) (v : α)
    (h : r.inputValAt idx = some v) : r.set_value idx v = some (r, true, []) := by
  obtain ⟨ic, hic, hval⟩ : ∃ ic, r.input_cells.get? idx = some ic ∧ ic.value = v := by
    unfold inputValAt at h
    cases hic : r.input_cells.get? idx with
    | none => rw [hic] at h; exact Option.noConfusion h
    | some ic =>
      rw [hic] at h
      exact ⟨ic, rfl, Option.some.inj h⟩
  exact set_value_noop hic hval

theorem C7_witness :
    diamondReady.inputValAt 0 = some 1 ∧
      diamondReady.set_value 0 1 = some (diamondReady, true, []) :=
  ⟨by decide, C7_noop_write diamondReady 0 1 (by decide)⟩

/-- C9: the `remove_callback` of the draft `src/src/lib.rs` is
`unimplemented!(...)`: it panics for every pair of handles — in particular for
invalid ones — instead of reporting the typed error its own documentation
("Returns an Err if either the cell or callback does not exist") promises;
it never produces a recoverable result. -/
theorem C9_src_draft_panics :
    ∀ cell cb, src_draft_remove_callback cell cb = none ∧
      ∀ e : Except RemoveCallbackError Unit, src_draft_remove_callback cell cb ≠ some e :=
  fun _ _ => ⟨rfl, fun _ h => Option.noConfusion h⟩

/-- C2: after any `set_value` call on a well-formed reactor, reading a compute
cell with `value` returns exactly the cell's function applied to the values
`value` returns for each of its dependencies, in dependency-list order —
however many times the cell was re-evaluated during the pass. -/
theorem C2_recompute_correct {α : Type} [DecidableEq α] (r : Reactor α) (hWF : r.WF)
    (idx : Nat) (v : α) :
    ∃ r' b tr, r.set_value idx v = some (r', b, tr) ∧
      ∀ i cell, r'.compute_cells.get? i = some cell →
        ∃ vals,
          List.Forall₂ (fun d w => ∃ r2 tr2, r'.value d = some (r2, some w, tr2))
            cell.deps vals ∧
          ∃ r3 tr3, r'.value (.Compute i) = some (r3, some (cell.f vals), tr3) := by
  obtain ⟨r', b, tr, heq, hWF', _, _⟩ := set_value_total hWF idx v
  exact ⟨r', b, tr, heq, fun i cell hc => value_consistent hWF' hc⟩

theorem C2_witness :
    ∃ r' b tr, diamondReady.set_value 0 (5 : Int) = some (r', b, tr) ∧
      ∀ i cell, r'.compute_cells.get? i = some cell →
        ∃ vals,
          List.Forall₂ (fun d w => ∃ r2 tr2, r'.value d = some (r2, some w, tr2))
            cell.deps vals ∧
          ∃ r3 tr3, r'.value (.Compute i) = some (r3, some (cell.f vals), tr3) :=
  C2_recompute_correct diamondReady (by decide) 0 5

/-- C5: `create_compute` validates its dependency list in order: if some
handle is invalid, it fails with the first invalid handle in list order and
performs no mutation at all — the reactor is returned unchanged and no
function is evaluated (the trace is empty).  If all handles are valid, it
allocates the new cell at the next index, registers it in the clients set of
every dependency, and evaluates its function exactly once, immediately,
populating the cache with the result on the current dependency values. -/
theorem C5_create_compute_atomic {α : Type} [DecidableEq α] (r : Reactor α) (hWF : r.WF)
    (ds : List CellID) (f : List α → α) :
    (∀ pre bad post, ds = pre ++ bad :: post → (∀ d ∈ pre, r.cellExists d) →
      ¬ r.cellExists bad → r.create_compute ds f = some (r, .error bad, [])) ∧
    ((∀ d ∈ ds, r.cellExists d) →
      ∃ r' tr vals,
        r.create_compute ds f = some (r', .ok r.compute_cells.length, tr) ∧
        r'.compute_cells.length = r.compute_cells.length + 1 ∧
        r'.compute_cells.get? r.compute_cells.length = some ⟨f, ds, [], 0, []⟩ ∧
        (∀ d ∈ ds, r'.clientRegistered r.compute_cells.length d) ∧
        tr.count (Event.eval r.compute_cells.length) = 1 ∧
        depsVals r.input_cells r.denot ds = some vals ∧
        pvAt r'.prev_vals r.compute_cells.length = some (f vals)) :=
  ⟨fun _ _ _ h1 h2 h3 => create_compute_err f h1 h2 h3,
   fun hex => create_compute_ok hWF f hex⟩

theorem C5_witness :
    diamondReady.create_compute [CellID.Input 5] (fun _ => (0 : Int)) =
      some (diamondReady, .error (CellID.Input 5), []) :=
  (C5_create_compute_atomic diamondReady (by decide) [CellID.Input 5] (fun _ => 0)).1
    [] (CellID.Input 5) [] rfl (by simp) (by decide)

/-- C4: for a `set_value` call on a valid input handle whose value actually
changes, the fixpoint iteration over the client graph discovers exactly the
transitive closure of the clients relation starting from that input's direct
clients, and every member of that closure is re-evaluated during the pass. -/
theorem C4_affected_is_closure {α : Type} [DecidableEq α] (r : Reactor α) (hWF : r.WF)
    (idx : Nat) (v : α) (hidx : idx < r.input_cells.length)
    (hchg : r.inputValAt idx ≠ some v) :
    ∃ r' tr S, r.set_value idx v = some (r', true, tr) ∧
      r.affectedSet idx = some S ∧
      (∀ c, c ∈ S ↔ r.InClosure idx c) ∧
      (∀ c ∈ S, Event.eval c ∈ tr) := by
  obtain ⟨ic, hic⟩ : ∃ ic, r.input_cells.get? idx = some ic :=
    ⟨_, List.get?_eq_get hidx⟩
  have hne : ¬ ic.value = v := by
    intro hcon
    refine hchg ?_
    unfold inputValAt
    rw [hic, Option.map_some', hcon]
  obtain ⟨pv', tr, S, heq, _, haff, hiff, _, hsett⟩ := set_value_spec hWF hic hne
  exact ⟨_, tr, S, heq, haff, hiff, fun c hc => (hsett c hc).2⟩

theorem C4_witness :
    ∃ r' tr S, diamondReady.set_value 0 (5 : Int) = some (r', true, tr) ∧
      diamondReady.affectedSet 0 = some S ∧
      (∀ c, c ∈ S ↔ diamondReady.InClosure 0 c) ∧
      (∀ c ∈ S, Event.eval c ∈ tr) :=
  C4_affected_is_closure diamondReady (by decide) 0 5 (by decide) (by decide)

/-- C8: `remove_callback` fails with `NonexistentCell` whenever the compute
handle is out of range, whatever the callback handle; fails with
`NonexistentCallback` when the cell exists but holds no callback with that id
— including an id that was just removed (removing twice fails the second
time); and otherwise succeeds, after which the removed callback is never
invoked by a subsequent `set_value` call. -/
theorem C8_remove_callback {α : Type} [DecidableEq α] (r : Reactor α) (hWF : r.WF)
    (cellIdx cb : Nat) :
    (r.compute_cells.length ≤ cellIdx →
      r.remove_callback cellIdx cb = (r, .error .NonexistentCell)) ∧
    (∀ c, r.compute_cells.get? cellIdx = some c → cb ∉ c.callbacks →
      r.remove_callback cellIdx cb = (r, .error .NonexistentCallback)) ∧
    (∀ c, r.compute_cells.get? cellIdx = some c → cb ∈ c.callbacks →
      ∃ r', r.remove_callback cellIdx cb = (r', .ok ()) ∧
        r'.remove_callback cellIdx cb = (r', .error .NonexistentCallback) ∧
        ∀ idx v r'' b tr, r'.set_value idx v = some (r'', b, tr) →
          ∀ w, Event.fire cellIdx cb w ∉ tr) := by
  refine ⟨fun h => remove_callback_invalid_cell h,
    fun c hc hnm => remove_callback_missing hc hnm, ?_⟩
  intro c hc hm
  have hnd : c.callbacks.Nodup := (hWF.get?C hc).2.2.2.1
  have hlt : cellIdx < r.compute_cells.length := (List.get?_eq_some.1 hc).1
  refine ⟨_, remove_callback_found hc hm, ?_, ?_⟩
  · have hc' : ({ r with compute_cells := r.compute_cells.set cellIdx ({ c with callbacks := c.callbacks.erase cb }) } : Reactor α).compute_cells.get? cellIdx = some ({ c with callbacks := c.callbacks.erase cb }) := by
      show (r.compute_cells.set cellIdx _).get? cellIdx = _
      rw [List.get?_set_eq_of_lt _ hlt]
    refine remove_callback_missing hc' ?_
    intro hmem
    exact absurd rfl ((hnd.mem_erase_iff.1 hmem).1)
  · intro idx v r'' b tr hsv w hmem
    have hcb := set_value_fires_registered (WF_remove hWF hc) hsv hmem
    rw [callbacksOf_after_remove hc] at hcb
    exact absurd rfl ((hnd.mem_erase_iff.1 hcb).1)

theorem C8_witness :
    ∃ r', diamondReady.remove_callback 2 0 = (r', .ok ()) ∧
      r'.remove_callback 2 0 = (r', .error .NonexistentCallback) ∧
      ∀ idx v r'' b tr, r'.set_value idx (v : Int) = some (r'', b, tr) →
        ∀ w, Event.fire 2 0 w ∉ tr :=
  (C8_remove_callback diamondReady (by decide) 2 0).2.2 _ rfl (by decide)

/-- C10: consecutive reads are observationally pure: two `value` calls on the
same handle with no mutating operation between them return equal results, and
the second call fires no callback on any compute cell (even though a compute
read re-evaluates). -/
theorem C10_reads_pure {α : Type} [DecidableEq α] (r : Reactor α) (hWF : r.WF)
    (h : CellID) :
    ∃ r1 v1 tr1 r2 v2 tr2,
      r.value h = some (r1, v1, tr1) ∧
      r1.value h = some (r2, v2, tr2) ∧
      v2 = v1 ∧
      ∀ c, Reactor.firesOn tr2 c = [] := by
  cases h with
  | Input j =>
    exact ⟨r, _, [], r, _, [], rfl, rfl, rfl, fun _ => rfl⟩
  | Compute i =>
    by_cases hi : i < r.compute_cells.length
    · obtain ⟨pv', v, tr, heq, hden, hlen, hpass, hset⟩ := value_compute hWF hi
      obtain ⟨cell, hc⟩ : ∃ cell, r.compute_cells.get? i = some cell :=
        ⟨_, List.get?_eq_get hi⟩
      obtain ⟨v2, tr2, heq2, hden2, hfires⟩ :=
        evalCell_stable (WF_prev_set hWF hlen).wfdeps r.compute_cells.length i pv'
          hi hi hlen (fun j hj => hset j hj)
      have hv2 : v2 = v := by
        have hd2 : r.denot i = some v2 := hden2
        exact Option.some.inj (hd2.symm.trans hden)
      have heqv2 : Reactor.value { r with prev_vals := pv' } (.Compute i) =
          some ({ r with prev_vals := pv' }, some v2, tr2) := by
        simp only [value]
        rw [hc]
        rw [show Reactor.evalCell { r with prev_vals := pv' } r.compute_cells.length i pv' = some (pv', v2, tr2) from heq2]
      exact ⟨_, some v, tr, _, some v2, tr2, heq, heqv2, congrArg some hv2, hfires⟩
    · have hnone : r.compute_cells.get? i = none :=
        List.get?_eq_none.2 (Nat.le_of_not_lt hi)
      have h1 : r.value (.Compute i) = some (r, none, []) := by
        simp only [value, hnone]
      exact ⟨r, none, [], r, none, [], h1, h1, rfl, fun _ => rfl⟩

theorem C10_witness :
    ∃ r1 v1 tr1 r2 v2 tr2,
      diamondReady.value (.Compute 2) = some (r1, v1, tr1) ∧
      r1.value (.Compute 2) = some (r2, v2, tr2) ∧
      v2 = v1 ∧
      ∀ c, Reactor.firesOn tr2 c = [] :=
  C10_reads_pure diamondReady (by decide) (.Compute 2)

/-- C1: the callback-firing discipline of one `set_value` call on a valid
input handle of a settled, well-formed reactor, for every compute cell `C`:
if `C`'s settled (post-pass) value differs from its value before the call,
every callback registered on `C` at call time fires exactly once during the
call, receiving the settled value; if the settled value equals the pre-call
value, no callback on `C` fires at all. -/
theorem C1_callbacks_fire_once {α : Type} [DecidableEq α] (r : Reactor α) (hWF : r.WF)
    (hst : r.Settled) (idx : Nat) (hidx : idx < r.input_cells.length) (v : α) :
    ∃ r' tr, r.set_value idx v = some (r', true, tr) ∧
      ∀ c, c < r.compute_cells.length →
        (r'.denot c = r.denot c → Reactor.firesOn tr c = []) ∧
        (r'.denot c ≠ r.denot c →
          ∃ w, r'.denot c = some w ∧
            Reactor.firesOn tr c = (r.callbacksOf c).map (fun cb => Event.fire c cb w) ∧
            ∀ cb ∈ r.callbacksOf c,
              (Reactor.firesOn tr c).count (Event.fire c cb w) = 1) := by
  obtain ⟨ic, hic⟩ : ∃ ic, r.input_cells.get? idx = some ic :=
    ⟨_, List.get?_eq_get hidx⟩
  by_cases hv : ic.value = v
  · refine ⟨r, [], set_value_noop hic hv, ?_⟩
    intro c _
    exact ⟨fun _ => rfl, fun hne => absurd rfl hne⟩
  · obtain ⟨pv', tr, S, heq, hlen, haff, hiff, hpass, hsett⟩ := set_value_spec hWF hic hv
    refine ⟨_, tr, heq, ?_⟩
    intro c hcN
    constructor
    · intro heqd
      rcases hpass c with ⟨_, hf⟩ | ⟨w, hw, _, hne, _⟩
      · exact hf
      · exfalso
        have hw' : Reactor.denot { r with input_cells := r.input_cells.set idx ({ ic with value := v }), prev_vals := pv' } c = some w := hw
        rw [heqd] at hw'
        exact hne ((hst c hcN).trans hw')
    · intro hneq
      have hcl : r.InClosure idx c := by
        by_contra hncl
        refine hneq ?_
        exact denot_input_set hWF hic v c hncl
      obtain ⟨hsettc, _⟩ := hsett c ((hiff c).2 hcl)
      rcases hpass c with ⟨he, _⟩ | ⟨w, hw, _, _, hf⟩
      · exfalso
        refine hneq ?_
        have h1 : Reactor.denot { r with input_cells := r.input_cells.set idx ({ ic with value := v }), prev_vals := pv' } c = pvAt pv' c := hsettc.symm
        rw [h1, he]
        exact hst c hcN
      · have hnodup : (r.callbacksOf c).Nodup := by
          obtain ⟨cc, hcc⟩ : ∃ cc, r.compute_cells.get? c = some cc :=
            ⟨_, List.get?_eq_get hcN⟩
          rw [callbacksOf_eq hcc]
          exact (hWF.get?C hcc).2.2.2.1
        have hw' : Reactor.denot { r with input_cells := r.input_cells.set idx ({ ic with value := v }), prev_vals := pv' } c = some w := hw
        refine ⟨w, hw', hf, ?_⟩
        intro cb hcb
        rw [hf]
        exact (List.count_map_of_injective _ (fun k => Event.fire c k w)
          (fun a b hab => (Event.fire.injEq .. ▸ hab).2.1) cb).trans
          (List.count_eq_one_of_mem hnodup hcb)

theorem C1_witness :
    ∃ r' tr, diamondReady.set_value 0 (5 : Int) = some (r', true, tr) ∧
      ∀ c, c < diamondReady.compute_cells.length →
        (r'.denot c = diamondReady.denot c → Reactor.firesOn tr c = []) ∧
        (r'.denot c ≠ diamondReady.denot c →
          ∃ w, r'.denot c = some w ∧
            Reactor.firesOn tr c =
              (diamondReady.callbacksOf c).map (fun cb => Event.fire c cb w) ∧
            ∀ cb ∈ diamondReady.callbacksOf c,
              (Reactor.firesOn tr c).count (Event.fire c cb w) = 1) :=
  C1_callbacks_fire_once diamondReady (by decide) (by decide) 0 (by decide) 5

end React
